import Mathlib

/-!
Shallow embedding of the Thanos block lifecycle subsystem
(pkg/block/block.go and pkg/block/metadata/meta.go): block descriptor
decoding, the durable local descriptor write, upload, download and delete
orchestration against an object store, and the lifecycle mark operations.
Store and filesystem effects are modelled by explicit state passing plus
oracles for the success of individual calls, and each operation returns
the trace of store calls it issued, so that the ordering guarantees of
the protocol can be stated and proved.
-/

deriving instance DecidableEq for Except

namespace metadata

/-- Hash functions appearing in file manifests. The source represents
these as strings, the empty string meaning that no hashing is configured.
Modelled from the spec: the hash helpers live in pkg/block/metadata
outside the given sources; the spec calls hashing an explicit, skippable
cost selected by a non trivial hash function. -/
inductive HashFunc
  | noneFunc
  | sha256
deriving DecidableEq

/-- An optional content hash of a file, as recorded in the files manifest.
Modelled from the spec: equality of hashes is structural equality of the
function and the value. -/
structure ObjectHash where
  func : HashFunc
  value : String
deriving DecidableEq

/-- One entry of the files manifest of a block descriptor. A zero size
stands for an absent size, mirroring the omitempty encoding of the source. -/
structure File where
  relPath : String
  sizeBytes : Int
  hash : Option ObjectHash
deriving DecidableEq

/-- Lexicographic comparison of character lists by code point, the model
of the byte wise string comparison the source sorts with. -/
def charsLe : List Char → List Char → Bool
  | [], _ => true
  | _ :: _, [] => false
  | a :: as, b :: bs =>
    if a.toNat < b.toNat then true
    else if b.toNat < a.toNat then false
    else charsLe as bs

theorem charsLe_total : ∀ as bs, charsLe as bs = true ∨ charsLe bs as = true := by
  intro as
  induction as with
  | nil => intro bs; exact Or.inl rfl
  | cons a as ih =>
    intro bs
    cases bs with
    | nil => exact Or.inr rfl
    | cons b bs =>
      simp only [charsLe]
      by_cases h1 : a.toNat < b.toNat
      · exact Or.inl (by rw [if_pos h1])
      · by_cases h2 : b.toNat < a.toNat
        · refine Or.inr ?_
          rw [if_pos h2]
        · rw [if_neg h1, if_neg h2, if_neg h2, if_neg h1]
          exact ih bs

theorem charsLe_trans :
    ∀ as bs cs, charsLe as bs = true → charsLe bs cs = true → charsLe as cs = true := by
  intro as
  induction as with
  | nil => intro bs cs _ _; rfl
  | cons a as ih =>
    intro bs cs h1 h2
    cases bs with
    | nil => simp [charsLe] at h1
    | cons b bs =>
      cases cs with
      | nil => simp [charsLe] at h2
      | cons c cs =>
        simp only [charsLe] at h1 h2 ⊢
        by_cases hab : a.toNat < b.toNat
        · by_cases hbc : b.toNat < c.toNat
          · rw [if_pos (by omega)]
          · rw [if_neg hbc] at h2
            by_cases hcb : c.toNat < b.toNat
            · rw [if_pos hcb] at h2
              exact absurd h2 (by simp)
            · rw [if_pos (by omega)]
        · rw [if_neg hab] at h1
          by_cases hba : b.toNat < a.toNat
          · rw [if_pos hba] at h1
            exact absurd h1 (by simp)
          · rw [if_neg hba] at h1
            by_cases hbc : b.toNat < c.toNat
            · rw [if_pos (by omega)]
            · rw [if_neg hbc] at h2
              by_cases hcb : c.toNat < b.toNat
              · rw [if_pos hcb] at h2
                exact absurd h2 (by simp)
              · rw [if_neg hcb] at h2
                rw [if_neg (by omega), if_neg (by omega)]
                exact ih bs cs h1 h2

/-- Lexicographic string comparison by code point. -/
def strLe (a b : String) : Bool := charsLe a.data b.data

/-- The sort order of the files manifest: by relative path. -/
def fileLe (a b : File) : Prop := strLe a.relPath b.relPath = true

instance : DecidableRel fileLe :=
  fun a b => inferInstanceAs (Decidable (strLe a.relPath b.relPath = true))

instance : IsTotal File fileLe :=
  ⟨fun a b => charsLe_total a.relPath.data b.relPath.data⟩

instance : IsTrans File fileLe :=
  ⟨fun a b c h1 h2 => charsLe_trans a.relPath.data b.relPath.data c.relPath.data h1 h2⟩

/-- The Thanos specific section of a block descriptor. The labels mapping
is optional so that a mapping absent from the JSON (a nil map in the
source) is distinguished from an empty one; an absent integer field
decodes to zero in the source, so absence of the version field is
represented by the value zero. -/
structure Thanos where
  version : Int
  labels : Option (List (String × String))
  downsampleResolution : Int
  source : String
  files : List File
  uploadTime : Int
deriving DecidableEq

/-- A block descriptor: the generic TSDB header fields this subsystem
uses together with the Thanos section. -/
structure Meta where
  ulid : String
  minTime : Int
  maxTime : Int
  version : Int
  thanos : Thanos
deriving DecidableEq

/-- The single supported version of the generic TSDB header. -/
def TSDBVersion1 : Int := 1

/-- The single supported version of the Thanos section. -/
def ThanosVersion1 : Int := 1

/-- The known JSON filename for meta information. -/
def MetaFilename : String := "meta.json"

/-- Read models metadata.Read. It takes the outcome of the generic JSON
decoding step (the JSON codec is an external library, so its outcome is
the input of the model) and performs exactly the validation and
normalization that the source applies to the decoded value: the top
level version must be the supported one, the Thanos section version is
defaulted from zero to the legacy value and must then be the supported
one, and a nil labels mapping is replaced by an empty one. -/
def Read (decoded : Except String Meta) : Except String Meta :=
  match decoded with
  | .error e => .error e
  | .ok m =>
    if m.version ≠ TSDBVersion1 then .error "unexpected meta file version"
    else if (if m.thanos.version = 0 then ThanosVersion1 else m.thanos.version) ≠ ThanosVersion1 then
      .error "unexpected meta file Thanos section version"
    else if m.thanos.labels = none then
      .ok { m with thanos := { m.thanos with labels := some [] } }
    else .ok m

theorem Read_error_of_version {m : Meta} (h : m.version ≠ TSDBVersion1) :
    Read (.ok m) = .error "unexpected meta file version" := by
  simp [Read, h]

theorem Read_error_of_thanosVersion {m : Meta}
    (h : (if m.thanos.version = 0 then ThanosVersion1 else m.thanos.version) ≠ ThanosVersion1) :
    (m.version = TSDBVersion1 →
      Read (.ok m) = .error "unexpected meta file Thanos section version") := by
  intro hv
  simp only [Read]
  rw [if_neg (by simp [hv]), if_pos h]

theorem Read_ok_of {m : Meta} (hv : m.version = TSDBVersion1)
    (ht : (if m.thanos.version = 0 then ThanosVersion1 else m.thanos.version) = ThanosVersion1) :
    Read (.ok m) =
      .ok { m with thanos := { m.thanos with labels := some (m.thanos.labels.getD []) } } := by
  simp only [Read]
  rw [if_neg (by simp [hv]), if_neg (by simp [ht])]
  cases hl : m.thanos.labels with
  | none => simp [hl]
  | some l =>
    rw [if_neg (by simp [hl])]
    rw [show ((some l : Option (List (String × String))).getD []) = l from rfl, ← hl]

theorem Read_ok_labels {x : Except String Meta} {m' : Meta} (hok : Read x = .ok m') :
    m'.thanos.labels ≠ none := by
  cases x with
  | error e => simp [Read] at hok
  | ok m =>
    simp only [Read] at hok
    by_cases h1 : m.version ≠ TSDBVersion1
    · rw [if_pos h1] at hok
      simp at hok
    · rw [if_neg h1] at hok
      by_cases h2 : (if m.thanos.version = 0 then ThanosVersion1
          else m.thanos.version) ≠ ThanosVersion1
      · rw [if_pos h2] at hok
        simp at hok
      · rw [if_neg h2] at hok
        by_cases h3 : m.thanos.labels = none
        · rw [if_pos h3] at hok
          cases hok
          simp
        · rw [if_neg h3] at hok
          cases hok
          exact h3

end metadata

/-- Claim C4: decoding fails when the top level format version is not the
single supported integer; it fails when the Thanos section version, after
defaulting the absent (zero) value to 1, is not 1, so an entirely absent
Thanos section version decodes successfully; every successfully decoded
descriptor has a present labels mapping, an absent mapping being
normalized to the empty one; and errors of the underlying JSON decoding
are propagated. -/
theorem read_version_gating :
    (∀ e : String, metadata.Read (.error e) = .error e) ∧
    (∀ m : metadata.Meta,
      (m.version ≠ metadata.TSDBVersion1 → ∃ e, metadata.Read (.ok m) = .error e) ∧
      (m.version = metadata.TSDBVersion1 →
        ((if m.thanos.version = 0 then metadata.ThanosVersion1 else m.thanos.version) ≠
            metadata.ThanosVersion1 →
          ∃ e, metadata.Read (.ok m) = .error e) ∧
        ((if m.thanos.version = 0 then metadata.ThanosVersion1 else m.thanos.version) =
            metadata.ThanosVersion1 →
          metadata.Read (.ok m) =
            .ok { m with thanos := { m.thanos with labels := some (m.thanos.labels.getD []) } }))) ∧
    (∀ (x : Except String metadata.Meta) (m' : metadata.Meta),
      metadata.Read x = .ok m' → m'.thanos.labels ≠ none) := by
  refine ⟨fun e => rfl, fun m => ⟨?_, fun hv => ⟨?_, ?_⟩⟩, ?_⟩
  · intro hne
    exact ⟨_, metadata.Read_error_of_version hne⟩
  · intro hne
    exact ⟨_, metadata.Read_error_of_thanosVersion hne hv⟩
  · intro hok
    exact metadata.Read_ok_of hv hok
  · intro x m' hok
    exact metadata.Read_ok_labels hok

/-- A descriptor with an unsupported top level version, used as a concrete
test input. -/
def metaV2 : metadata.Meta :=
  { ulid := "01BX5ZZKBKACTAV9WEVGEMMVRZ", minTime := 0, maxTime := 1, version := 2,
    thanos := { version := 1, labels := some [("tenant", "a")],
                downsampleResolution := 0, source := "sidecar", files := [],
                uploadTime := 0 } }

/-- A legacy descriptor with an absent Thanos section version and a nil
labels mapping, used as a concrete test input. -/
def metaLegacy : metadata.Meta :=
  { ulid := "01BX5ZZKBKACTAV9WEVGEMMVRZ", minTime := 0, maxTime := 1, version := 1,
    thanos := { version := 0, labels := none, downsampleResolution := 0,
                source := "sidecar", files := [], uploadTime := 0 } }

/-- Concrete check of read_version_gating: a descriptor with top level
version 2 is rejected, and a legacy descriptor with top level version 1,
Thanos section version 0 and a nil labels mapping decodes to one with an
empty labels mapping. -/
theorem read_version_gating_witness :
    (∃ e, metadata.Read (.ok metaV2) = .error e) ∧
    metadata.Read (.ok metaLegacy) =
      .ok { metaLegacy with thanos := { metaLegacy.thanos with labels := some [] } } := by
  constructor
  · exact (read_version_gating.2.1 metaV2).1 (by decide)
  · have h := ((read_version_gating.2.1 metaLegacy).2 (by decide)).2 (by decide)
    simpa [metaLegacy] using h

namespace block

/-- DownloadMeta models block.DownloadMeta: it fetches the descriptor
object and unmarshals it directly, without applying the validation and
normalization of the metadata decoder. The input models the outcome of
the store get followed by the JSON unmarshal: none is a failing get, an
error value is a failing unmarshal, and an ok value is the decoded
descriptor, which is returned as is. -/
def DownloadMeta (fetched : Option (Except String metadata.Meta)) :
    Except String metadata.Meta :=
  match fetched with
  | none => .error "meta.json bkt get"
  | some (.error e) => .error e
  | some (.ok m) => .ok m

end block

/-- Claim C9: DownloadMeta returns the unmarshalled descriptor without the
decoder validation: a stored descriptor with an unsupported top level or
Thanos section version is returned unchanged and successfully, and a
descriptor with a nil labels mapping is returned with it still nil,
whereas metadata.Read rejects unsupported versions and normalizes a nil
labels mapping to an empty one. -/
theorem downloadMeta_skips_validation (m : metadata.Meta) :
    block.DownloadMeta (some (.ok m)) = .ok m ∧
    (m.version ≠ metadata.TSDBVersion1 → ∃ e, metadata.Read (.ok m) = .error e) ∧
    ((if m.thanos.version = 0 then metadata.ThanosVersion1 else m.thanos.version) ≠
        metadata.ThanosVersion1 → m.version = metadata.TSDBVersion1 →
      ∃ e, metadata.Read (.ok m) = .error e) ∧
    (m.thanos.labels = none →
      ∃ m', block.DownloadMeta (some (.ok m)) = .ok m' ∧ m'.thanos.labels = none) ∧
    (∀ m', metadata.Read (.ok m) = .ok m' → m'.thanos.labels ≠ none) := by
  refine ⟨rfl, ?_, ?_, ?_, ?_⟩
  · intro h
    exact ⟨_, metadata.Read_error_of_version h⟩
  · intro h hv
    exact ⟨_, metadata.Read_error_of_thanosVersion h hv⟩
  · intro h
    exact ⟨m, rfl, h⟩
  · intro m' h
    exact metadata.Read_ok_labels h

/-- Concrete check of downloadMeta_skips_validation: the descriptor with
top level version 2 is fetched successfully by DownloadMeta even though
the decoder rejects it, and the legacy descriptor with a nil labels
mapping is returned with the mapping still nil. -/
theorem downloadMeta_skips_validation_witness :
    block.DownloadMeta (some (.ok metaV2)) = .ok metaV2 ∧
    (∃ e, metadata.Read (.ok metaV2) = .error e) ∧
    (∃ m', block.DownloadMeta (some (.ok metaLegacy)) = .ok m' ∧ m'.thanos.labels = none) := by
  refine ⟨(downloadMeta_skips_validation metaV2).1,
    (downloadMeta_skips_validation metaV2).2.1 (by decide),
    (downloadMeta_skips_validation metaLegacy).2.2.2.1 (by decide)⟩

namespace metadata

/-- A local filesystem, modelled as a mapping from paths to complete file
contents. -/
abbrev FS := String → Option String

/-- Look up the content of the file at path p. -/
def fsGet (fs : FS) (p : String) : Option String := fs p

/-- Create or overwrite the file at path p with content c. -/
def fsSet (fs : FS) (p c : String) : FS :=
  fun q => if q = p then some c else fs q

/-- Remove the file at path p. -/
def fsRemove (fs : FS) (p : String) : FS :=
  fun q => if q = p then none else fs q

theorem fsGet_fsSet_self (fs : FS) (p c : String) : fsGet (fsSet fs p c) p = some c := by
  simp [fsGet, fsSet]

theorem fsGet_fsSet_ne (fs : FS) {p q : String} (c : String) (h : p ≠ q) :
    fsGet (fsSet fs q c) p = fsGet fs p := by
  simp [fsGet, fsSet, h]

theorem fsGet_fsRemove_self (fs : FS) (p : String) : fsGet (fsRemove fs p) p = none := by
  simp [fsGet, fsRemove]

theorem fsGet_fsRemove_ne (fs : FS) {p q : String} (h : p ≠ q) :
    fsGet (fsRemove fs q) p = fsGet fs p := by
  simp [fsGet, fsRemove, h]

/-- One filesystem call issued by the local descriptor write. -/
inductive FsOp
  | create (p : String)
  | write (p : String) (content : String)
  | syncFile (p : String)
  | close (p : String)
  | removeAll (p : String)
  | rename (src dst : String)
  | openDir (p : String)
  | syncDir (p : String)
  | closeDir (p : String)
deriving DecidableEq

/-- The directory containing the given path. -/
def parentDir (p : String) : String :=
  String.intercalate "/" ((p.splitOn "/").dropLast)

/-- Meta.Write models the encoding of a descriptor. The JSON encoder is an
external library; the model uses a fixed deterministic rendering, since
the claims depend only on the encoded descriptor being a single complete
string. -/
def Meta.Write (m : Meta) : String :=
  "meta version=" ++ toString m.version ++ " ulid=" ++ m.ulid ++
  " minTime=" ++ toString m.minTime ++ " maxTime=" ++ toString m.maxTime ++
  " thanosVersion=" ++ toString m.thanos.version ++
  " uploadTime=" ++ toString m.thanos.uploadTime

/-- renameFile models metadata.renameFile on the success path: it removes
the destination, renames the source onto it, then opens the parent
directory of the destination, syncs it and closes it. It returns the
calls issued, the filesystem snapshot after each call, and the final
filesystem. The caller has just created the source file, so the rename
moves its content to the destination. -/
def renameFile (src dst : String) (fs : FS) : List FsOp × List FS × FS :=
  let s1 := fsRemove fs dst
  let s2 := fsSet (fsRemove s1 src) dst ((fsGet s1 src).getD "")
  ([.removeAll dst, .rename src dst, .openDir (parentDir dst), .syncDir (parentDir dst),
    .closeDir (parentDir dst)],
   [s1, s2, s2, s2, s2], s2)

/-- WriteToDir models metadata.Meta.WriteToDir on the success path: create
the temp file next to the target, write the encoded descriptor to it,
sync it, close it, then hand over to renameFile. It returns every
filesystem call issued, the filesystem snapshot after each call, and the
final filesystem. -/
def WriteToDir (m : Meta) (dir : String) (fs : FS) : List FsOp × List FS × FS :=
  let path := dir ++ "/" ++ MetaFilename
  let tmp := path ++ ".tmp"
  let enc := Meta.Write m
  let s1 := fsSet fs tmp ""
  let s2 := fsSet s1 tmp enc
  let (ops, states, final) := renameFile tmp path s2
  ([.create tmp, .write tmp enc, .syncFile tmp, .close tmp] ++ ops,
   [s1, s2, s2, s2] ++ states, final)

end metadata

/-- A concrete local filesystem holding an old descriptor at d/meta.json. -/
def fsOld : metadata.FS := fun q => if q = "d/meta.json" then some "OLD" else none

/-- Claim C3 as stated is false on the code: renameFile removes the target
before renaming the temp file onto it, so between the removal and the
rename the target path holds no file at all, neither the old nor the new
content. Counterexample: writing a descriptor into a directory that
already holds an old descriptor. -/
theorem writeToDir_counterexample :
    ¬ (∀ s ∈ (metadata.WriteToDir metaLegacy "d" fsOld).2.1,
        metadata.fsGet s "d/meta.json" = metadata.fsGet fsOld "d/meta.json" ∨
        metadata.fsGet s "d/meta.json" = some (metadata.Meta.Write metaLegacy)) := by
  intro h
  have hnone : (none : Option String) ∈
      ((metadata.WriteToDir metaLegacy "d" fsOld).2.1.map
        (fun s => metadata.fsGet s "d/meta.json")) := by decide
  obtain ⟨s, hs, heq⟩ := List.mem_map.1 hnone
  rcases h s hs with h1 | h1
  · rw [heq] at h1
    simp [metadata.fsGet, fsOld] at h1
  · rw [heq] at h1
    simp at h1

/-- Claim C3 (amended): the local descriptor write issues exactly the
sequence create temp file in the target directory, write the encoding,
sync the temp file, close it, remove the existing target, rename the temp
file onto the target, then open, sync and close the parent directory; at
every intermediate point the target path holds either the complete old
content, the complete new content, or no file at all (the window between
the removal and the rename), never a truncated file; and the final state
holds the complete new content. -/
theorem writeToDir_sequence (m : metadata.Meta) (dir : String) (fs : metadata.FS) :
    (metadata.WriteToDir m dir fs).1 =
      [.create (dir ++ "/" ++ metadata.MetaFilename ++ ".tmp"),
       .write (dir ++ "/" ++ metadata.MetaFilename ++ ".tmp") (metadata.Meta.Write m),
       .syncFile (dir ++ "/" ++ metadata.MetaFilename ++ ".tmp"),
       .close (dir ++ "/" ++ metadata.MetaFilename ++ ".tmp"),
       .removeAll (dir ++ "/" ++ metadata.MetaFilename),
       .rename (dir ++ "/" ++ metadata.MetaFilename ++ ".tmp")
         (dir ++ "/" ++ metadata.MetaFilename),
       .openDir (metadata.parentDir (dir ++ "/" ++ metadata.MetaFilename)),
       .syncDir (metadata.parentDir (dir ++ "/" ++ metadata.MetaFilename)),
       .closeDir (metadata.parentDir (dir ++ "/" ++ metadata.MetaFilename))] ∧
    (∀ s ∈ (metadata.WriteToDir m dir fs).2.1,
      metadata.fsGet s (dir ++ "/" ++ metadata.MetaFilename) =
          metadata.fsGet fs (dir ++ "/" ++ metadata.MetaFilename) ∨
      metadata.fsGet s (dir ++ "/" ++ metadata.MetaFilename) = some (metadata.Meta.Write m) ∨
      metadata.fsGet s (dir ++ "/" ++ metadata.MetaFilename) = none) ∧
    metadata.fsGet (metadata.WriteToDir m dir fs).2.2 (dir ++ "/" ++ metadata.MetaFilename) =
      some (metadata.Meta.Write m) := by
  have hne : dir ++ "/" ++ metadata.MetaFilename ≠ dir ++ "/" ++ metadata.MetaFilename ++ ".tmp" := by
    intro h
    have hl := congrArg String.length h
    simp [String.length_append] at hl
    exact absurd hl (by decide)
  have hfinal : metadata.fsGet (metadata.WriteToDir m dir fs).2.2
      (dir ++ "/" ++ metadata.MetaFilename) = some (metadata.Meta.Write m) := by
    show metadata.fsGet (metadata.fsSet _ _ _) _ = _
    rw [metadata.fsGet_fsSet_self]
    congr 1
    rw [metadata.fsGet_fsRemove_ne _ (Ne.symm hne), metadata.fsGet_fsSet_self]
    rfl
  refine ⟨rfl, ?_, hfinal⟩
  intro s hs
  have hs' : s = metadata.fsSet fs (dir ++ "/" ++ metadata.MetaFilename ++ ".tmp") "" ∨
      s = metadata.fsSet (metadata.fsSet fs (dir ++ "/" ++ metadata.MetaFilename ++ ".tmp") "")
            (dir ++ "/" ++ metadata.MetaFilename ++ ".tmp") (metadata.Meta.Write m) ∨
      s = metadata.fsRemove
            (metadata.fsSet (metadata.fsSet fs (dir ++ "/" ++ metadata.MetaFilename ++ ".tmp") "")
              (dir ++ "/" ++ metadata.MetaFilename ++ ".tmp") (metadata.Meta.Write m))
            (dir ++ "/" ++ metadata.MetaFilename) ∨
      s = metadata.fsSet
            (metadata.fsRemove
              (metadata.fsRemove
                (metadata.fsSet (metadata.fsSet fs (dir ++ "/" ++ metadata.MetaFilename ++ ".tmp") "")
                  (dir ++ "/" ++ metadata.MetaFilename ++ ".tmp") (metadata.Meta.Write m))
                (dir ++ "/" ++ metadata.MetaFilename))
              (dir ++ "/" ++ metadata.MetaFilename ++ ".tmp"))
            (dir ++ "/" ++ metadata.MetaFilename)
            ((metadata.fsGet
                (metadata.fsRemove
                  (metadata.fsSet (metadata.fsSet fs (dir ++ "/" ++ metadata.MetaFilename ++ ".tmp") "")
                    (dir ++ "/" ++ metadata.MetaFilename ++ ".tmp") (metadata.Meta.Write m))
                  (dir ++ "/" ++ metadata.MetaFilename))
                (dir ++ "/" ++ metadata.MetaFilename ++ ".tmp")).getD "") := by
    simp only [metadata.WriteToDir, metadata.renameFile, List.mem_cons, List.mem_append,
      List.not_mem_nil, or_false] at hs
    tauto
  rcases hs' with rfl | rfl | rfl | rfl
  · exact Or.inl (metadata.fsGet_fsSet_ne _ _ hne)
  · refine Or.inl ?_
    rw [metadata.fsGet_fsSet_ne _ _ hne, metadata.fsGet_fsSet_ne _ _ hne]
  · exact Or.inr (Or.inr (metadata.fsGet_fsRemove_self _ _))
  · exact Or.inr (Or.inl hfinal)

/-- Concrete check of writeToDir_sequence: on the concrete old filesystem,
the first intermediate state still holds the old content, and the final
state holds the new encoded descriptor. -/
theorem writeToDir_sequence_witness :
    (metadata.fsGet (metadata.fsSet fsOld "d/meta.json.tmp" "") "d/meta.json" =
        metadata.fsGet fsOld "d/meta.json" ∨
      metadata.fsGet (metadata.fsSet fsOld "d/meta.json.tmp" "") "d/meta.json" =
        some (metadata.Meta.Write metaLegacy) ∨
      metadata.fsGet (metadata.fsSet fsOld "d/meta.json.tmp" "") "d/meta.json" = none) ∧
    metadata.fsGet (metadata.WriteToDir metaLegacy "d" fsOld).2.2 "d/meta.json" =
      some (metadata.Meta.Write metaLegacy) := by
  have h := writeToDir_sequence metaLegacy "d" fsOld
  exact ⟨h.2.1 _ (List.Mem.head _), h.2.2⟩

namespace block

/-- The known index file name for a block index. -/
def IndexFilename : String := "index"

/-- The known directory name for chunks with compressed samples. -/
def ChunksDirname : String := "chunks"

/-- Metadata of a local file as returned by a stat call. -/
structure FileInfo where
  size : Int
  isDir : Bool
deriving DecidableEq

/-- One entry of a local directory listing; a none info models a failing
Info call on the entry. -/
structure DirEnt where
  name : String
  info : Option FileInfo
deriving DecidableEq

/-- The local view of a block directory, as the filesystem calls made by
GatherFileStats see it: the chunk directory listing (none models a
failing ReadDir; the listing is sorted by name, as ReadDir guarantees),
the stat results for the index and descriptor files, and the hash
computation oracle keyed by the path relative to the block directory,
where none models a failing hash computation. -/
structure BlockFS where
  chunkEntries : Option (List DirEnt)
  indexInfo : Option FileInfo
  metaInfo : Option FileInfo
  calcHash : String → Option metadata.ObjectHash

/-- Errors of GatherFileStats. -/
inductive GatherErr
  | readDir
  | fileInfo (name : String)
  | hashChunk (name : String)
  | statIndex
  | hashIndex
  | statMeta
deriving DecidableEq

/-- The manifest entry built for one chunk directory entry: relative path
under the chunks directory, the stat size, and a hash exactly when a non
trivial hash function is configured and the entry is not a directory. -/
def chunkFileEntry (fs : BlockFS) (hf : metadata.HashFunc) (e : DirEnt) :
    Except GatherErr metadata.File :=
  match e.info with
  | none => .error (.fileInfo e.name)
  | some fi =>
    if hf ≠ metadata.HashFunc.noneFunc ∧ fi.isDir = false then
      match fs.calcHash (ChunksDirname ++ "/" ++ e.name) with
      | none => .error (.hashChunk e.name)
      | some h =>
        .ok { relPath := ChunksDirname ++ "/" ++ e.name, sizeBytes := fi.size, hash := some h }
    else .ok { relPath := ChunksDirname ++ "/" ++ e.name, sizeBytes := fi.size, hash := none }

/-- The loop of GatherFileStats over the chunk directory listing, aborting
at the first failing entry. -/
def gatherChunkFiles (fs : BlockFS) (hf : metadata.HashFunc) :
    List DirEnt → Except GatherErr (List metadata.File)
  | [] => .ok []
  | e :: es =>
    match chunkFileEntry fs hf e with
    | .error err => .error err
    | .ok f =>
      match gatherChunkFiles fs hf es with
      | .error err => .error err
      | .ok rest => .ok (f :: rest)

/-- The manifest entry built for the index file: the stat size and a hash
exactly when a non trivial hash function is configured. -/
def indexFileEntry (fs : BlockFS) (hf : metadata.HashFunc) : Except GatherErr metadata.File :=
  match fs.indexInfo with
  | none => .error .statIndex
  | some fi =>
    if hf ≠ metadata.HashFunc.noneFunc then
      match fs.calcHash IndexFilename with
      | none => .error .hashIndex
      | some h => .ok { relPath := IndexFilename, sizeBytes := fi.size, hash := some h }
    else .ok { relPath := IndexFilename, sizeBytes := fi.size, hash := none }

/-- GatherFileStats models block.GatherFileStats: one manifest entry per
chunk directory entry, one for the index file, one for the descriptor
file with no size and no hash, sorted by relative path; any failing
stat or hash aborts the collection with an error. -/
def GatherFileStats (fs : BlockFS) (hf : metadata.HashFunc) :
    Except GatherErr (List metadata.File) :=
  match fs.chunkEntries with
  | none => .error .readDir
  | some entries =>
    match gatherChunkFiles fs hf entries with
    | .error e => .error e
    | .ok chunkFiles =>
      match indexFileEntry fs hf with
      | .error e => .error e
      | .ok idx =>
        match fs.metaInfo with
        | none => .error .statMeta
        | some _ =>
          .ok (List.insertionSort metadata.fileLe (chunkFiles ++
            [idx, { relPath := metadata.MetaFilename, sizeBytes := 0, hash := none }]))

theorem chunkFileEntry_ok_iff {fs : BlockFS} {hf : metadata.HashFunc} {e : DirEnt}
    {f : metadata.File} :
    chunkFileEntry fs hf e = .ok f ↔
      ∃ fi, e.info = some fi ∧
        f = { relPath := ChunksDirname ++ "/" ++ e.name, sizeBytes := fi.size,
              hash := if hf ≠ metadata.HashFunc.noneFunc ∧ fi.isDir = false
                      then fs.calcHash (ChunksDirname ++ "/" ++ e.name) else none } ∧
        ((hf ≠ metadata.HashFunc.noneFunc ∧ fi.isDir = false) →
          (fs.calcHash (ChunksDirname ++ "/" ++ e.name)).isSome = true) := by
  cases hi : e.info with
  | none => simp [chunkFileEntry, hi]
  | some fi =>
    simp only [chunkFileEntry, hi]
    by_cases hc : hf ≠ metadata.HashFunc.noneFunc ∧ fi.isDir = false
    · rw [if_pos hc]
      cases hh : fs.calcHash (ChunksDirname ++ "/" ++ e.name) with
      | none =>
        simp only [hh]
        constructor
        · intro h
          exact absurd h (by simp)
        · rintro ⟨fi', hfi', hf', hsome⟩
          cases hfi'
          exact absurd (hsome hc) (by simp [hh])
      | some h =>
        simp only [hh]
        constructor
        · intro hok
          cases hok
          exact ⟨fi, rfl, by rw [if_pos hc], fun _ => by simp [hh]⟩
        · rintro ⟨fi', hfi', hf', _⟩
          cases hfi'
          rw [if_pos hc] at hf'
          rw [hf']
    · rw [if_neg hc]
      constructor
      · intro hok
        cases hok
        exact ⟨fi, rfl, by rw [if_neg hc], fun hcc => absurd hcc hc⟩
      · rintro ⟨fi', hfi', hf', _⟩
        cases hfi'
        rw [if_neg hc] at hf'
        rw [hf']

theorem indexFileEntry_ok_iff {fs : BlockFS} {hf : metadata.HashFunc} {f : metadata.File} :
    indexFileEntry fs hf = .ok f ↔
      ∃ fi, fs.indexInfo = some fi ∧
        f = { relPath := IndexFilename, sizeBytes := fi.size,
              hash := if hf ≠ metadata.HashFunc.noneFunc then fs.calcHash IndexFilename
                      else none } ∧
        (hf ≠ metadata.HashFunc.noneFunc → (fs.calcHash IndexFilename).isSome = true) := by
  cases hi : fs.indexInfo with
  | none => simp [indexFileEntry, hi]
  | some fi =>
    simp only [indexFileEntry, hi]
    by_cases hc : hf ≠ metadata.HashFunc.noneFunc
    · rw [if_pos hc]
      cases hh : fs.calcHash IndexFilename with
      | none =>
        simp only [hh]
        constructor
        · intro h
          exact absurd h (by simp)
        · rintro ⟨fi', hfi', hf', hsome⟩
          cases hfi'
          exact absurd (hsome hc) (by simp [hh])
      | some h =>
        simp only [hh]
        constructor
        · intro hok
          cases hok
          exact ⟨fi, rfl, by rw [if_pos hc], fun _ => by simp [hh]⟩
        · rintro ⟨fi', hfi', hf', _⟩
          cases hfi'
          rw [if_pos hc] at hf'
          rw [hf']
    · rw [if_neg hc]
      constructor
      · intro hok
        cases hok
        exact ⟨fi, rfl, by rw [if_neg hc], fun hcc => absurd hcc hc⟩
      · rintro ⟨fi', hfi', hf', _⟩
        cases hfi'
        rw [if_neg hc] at hf'
        rw [hf']

theorem gatherChunkFiles_ok_length {fs : BlockFS} {hf : metadata.HashFunc} :
    ∀ {es : List DirEnt} {l : List metadata.File},
      gatherChunkFiles fs hf es = .ok l → l.length = es.length := by
  intro es
  induction es with
  | nil =>
    intro l h
    cases h
    rfl
  | cons e es ih =>
    intro l h
    simp only [gatherChunkFiles] at h
    cases hce : chunkFileEntry fs hf e with
    | error err => rw [hce] at h; exact absurd h (by simp)
    | ok f =>
      rw [hce] at h
      cases hrest : gatherChunkFiles fs hf es with
      | error err => rw [hrest] at h; exact absurd h (by simp)
      | ok rest =>
        rw [hrest] at h
        cases h
        simp [ih hrest]

theorem gatherChunkFiles_ok_mem {fs : BlockFS} {hf : metadata.HashFunc} :
    ∀ {es : List DirEnt} {l : List metadata.File},
      gatherChunkFiles fs hf es = .ok l →
      ∀ e ∈ es, ∃ f, chunkFileEntry fs hf e = .ok f ∧ f ∈ l := by
  intro es
  induction es with
  | nil =>
    intro l _ e he
    exact absurd he (by simp)
  | cons a es ih =>
    intro l h e he
    simp only [gatherChunkFiles] at h
    cases hce : chunkFileEntry fs hf a with
    | error err => rw [hce] at h; exact absurd h (by simp)
    | ok f =>
      rw [hce] at h
      cases hrest : gatherChunkFiles fs hf es with
      | error err => rw [hrest] at h; exact absurd h (by simp)
      | ok rest =>
        rw [hrest] at h
        cases h
        rcases List.mem_cons.1 he with rfl | he'
        · exact ⟨f, hce, List.mem_cons_self _ _⟩
        · obtain ⟨f', hf', hmem⟩ := ih hrest e he'
          exact ⟨f', hf', List.mem_cons_of_mem _ hmem⟩

theorem gatherChunkFiles_ok_mem_rev {fs : BlockFS} {hf : metadata.HashFunc} :
    ∀ {es : List DirEnt} {l : List metadata.File},
      gatherChunkFiles fs hf es = .ok l →
      ∀ f ∈ l, ∃ e ∈ es, chunkFileEntry fs hf e = .ok f := by
  intro es
  induction es with
  | nil =>
    intro l h f hf'
    cases h
    exact absurd hf' (by simp)
  | cons a es ih =>
    intro l h f hfmem
    simp only [gatherChunkFiles] at h
    cases hce : chunkFileEntry fs hf a with
    | error err => rw [hce] at h; exact absurd h (by simp)
    | ok g =>
      rw [hce] at h
      cases hrest : gatherChunkFiles fs hf es with
      | error err => rw [hrest] at h; exact absurd h (by simp)
      | ok rest =>
        rw [hrest] at h
        cases h
        rcases List.mem_cons.1 hfmem with rfl | hmem'
        · exact ⟨a, List.mem_cons_self _ _, hce⟩
        · obtain ⟨e, he, hee⟩ := ih hrest f hmem'
          exact ⟨e, List.mem_cons_of_mem _ he, hee⟩

theorem gatherChunkFiles_ok_exists {fs : BlockFS} {hf : metadata.HashFunc} :
    ∀ {es : List DirEnt},
      (∀ e ∈ es, ∃ f, chunkFileEntry fs hf e = .ok f) →
      ∃ l, gatherChunkFiles fs hf es = .ok l := by
  intro es
  induction es with
  | nil => exact fun _ => ⟨[], rfl⟩
  | cons a es ih =>
    intro h
    obtain ⟨f, hfa⟩ := h a (List.mem_cons_self _ _)
    obtain ⟨l, hl⟩ := ih (fun e he => h e (List.mem_cons_of_mem _ he))
    exact ⟨f :: l, by simp only [gatherChunkFiles, hfa, hl]⟩

end block

namespace block

theorem gatherFileStats_ok_elim {fs : BlockFS} {hf : metadata.HashFunc}
    {out : List metadata.File} (h : GatherFileStats fs hf = .ok out) :
    ∃ entries chunkFiles idx,
      fs.chunkEntries = some entries ∧
      gatherChunkFiles fs hf entries = .ok chunkFiles ∧
      indexFileEntry fs hf = .ok idx ∧
      fs.metaInfo.isSome = true ∧
      out = List.insertionSort metadata.fileLe (chunkFiles ++
        [idx, { relPath := metadata.MetaFilename, sizeBytes := 0, hash := none }]) := by
  unfold GatherFileStats at h
  split at h
  next hce => exact absurd h (by simp)
  next entries hce =>
    split at h
    next e hgc => exact absurd h (by simp)
    next chunkFiles hgc =>
      split at h
      next e hie => exact absurd h (by simp)
      next idx hie =>
        split at h
        next hmi => exact absurd h (by simp)
        next mi hmi =>
          cases h
          exact ⟨entries, chunkFiles, idx, hce, hgc, hie, by simp [hmi], rfl⟩

end block

/-- Claim C8: for a local block directory whose chunk directory holds only
regular files, a successful GatherFileStats returns a manifest sorted by
relative path with exactly one entry per chunk directory entry carrying
its filesystem size, one entry for the index file with its size, and one
entry for the descriptor file with no size and no hash; chunk and index
hashes are recorded exactly when a non trivial hash function is
configured; and collection succeeds exactly when the chunk directory can
be listed and every required stat and hash succeeds, so any such failure
yields an error. -/
theorem gatherFileStats_manifest (fs : block.BlockFS) (hf : metadata.HashFunc)
    (hnd : ∀ e ∈ fs.chunkEntries.getD [],
      (e.info.map (fun fi => fi.isDir)).getD false = false) :
    (∀ out, block.GatherFileStats fs hf = .ok out →
      out.Pairwise metadata.fileLe ∧
      out.length = (fs.chunkEntries.getD []).length + 2 ∧
      (∀ e ∈ fs.chunkEntries.getD [], ∃ fi, e.info = some fi ∧
        ({ relPath := block.ChunksDirname ++ "/" ++ e.name, sizeBytes := fi.size,
           hash := if hf ≠ metadata.HashFunc.noneFunc
                   then fs.calcHash (block.ChunksDirname ++ "/" ++ e.name) else none } :
          metadata.File) ∈ out) ∧
      (∃ fi, fs.indexInfo = some fi ∧
        ({ relPath := block.IndexFilename, sizeBytes := fi.size,
           hash := if hf ≠ metadata.HashFunc.noneFunc then fs.calcHash block.IndexFilename
                   else none } : metadata.File) ∈ out) ∧
      ({ relPath := metadata.MetaFilename, sizeBytes := 0, hash := none } : metadata.File) ∈ out ∧
      (hf = metadata.HashFunc.noneFunc → ∀ f ∈ out, f.hash = none)) ∧
    ((∃ out, block.GatherFileStats fs hf = .ok out) ↔
      (fs.chunkEntries.isSome = true ∧
       (∀ e ∈ fs.chunkEntries.getD [],
         e.info.isSome = true ∧
         (hf ≠ metadata.HashFunc.noneFunc →
           (fs.calcHash (block.ChunksDirname ++ "/" ++ e.name)).isSome = true)) ∧
       fs.indexInfo.isSome = true ∧
       (hf ≠ metadata.HashFunc.noneFunc →
         (fs.calcHash block.IndexFilename).isSome = true) ∧
       fs.metaInfo.isSome = true)) := by
  constructor
  · intro out hout
    obtain ⟨entries, chunkFiles, idx, hce, hgc, hie, hmi, houteq⟩ :=
      block.gatherFileStats_ok_elim hout
    have hgd : fs.chunkEntries.getD [] = entries := by rw [hce]; rfl
    have hperm := List.perm_insertionSort metadata.fileLe
      (chunkFiles ++ [idx, { relPath := metadata.MetaFilename, sizeBytes := 0, hash := none }])
    have hmem_out : ∀ f : metadata.File, f ∈ out ↔
        (f ∈ chunkFiles ∨ f = idx ∨
          f = { relPath := metadata.MetaFilename, sizeBytes := 0, hash := none }) := by
      intro f
      rw [houteq, hperm.mem_iff]
      simp
    refine ⟨?_, ?_, ?_, ?_, ?_, ?_⟩
    · rw [houteq]
      exact List.sorted_insertionSort metadata.fileLe
        (chunkFiles ++ [idx, { relPath := metadata.MetaFilename, sizeBytes := 0, hash := none }])
    · rw [houteq, hperm.length_eq, hgd]
      simp [block.gatherChunkFiles_ok_length hgc]
    · intro e he
      rw [hgd] at he
      obtain ⟨f, hok, hmem⟩ := block.gatherChunkFiles_ok_mem hgc e he
      obtain ⟨fi, hfi, hform, _⟩ := block.chunkFileEntry_ok_iff.1 hok
      have hdir : fi.isDir = false := by
        have := hnd e (by rw [hgd]; exact he)
        rw [hfi] at this
        simpa using this
      refine ⟨fi, hfi, ?_⟩
      simp only [hdir, eq_self_iff_true, and_true] at hform
      have hmemo := (hmem_out f).2 (Or.inl hmem)
      rwa [hform] at hmemo
    · obtain ⟨fi, hfi, hform, _⟩ := block.indexFileEntry_ok_iff.1 hie
      refine ⟨fi, hfi, ?_⟩
      have hmemo := (hmem_out idx).2 (Or.inr (Or.inl rfl))
      rwa [hform] at hmemo
    · exact (hmem_out _).2 (Or.inr (Or.inr rfl))
    · intro hnone f hf'
      rcases (hmem_out f).1 hf' with hc | hc | hc
      · obtain ⟨e, _, hok⟩ := block.gatherChunkFiles_ok_mem_rev hgc f hc
        obtain ⟨fi, _, hform, _⟩ := block.chunkFileEntry_ok_iff.1 hok
        rw [hform]
        simp [hnone]
      · obtain ⟨fi, _, hform, _⟩ := block.indexFileEntry_ok_iff.1 hie
        rw [hc, hform]
        simp [hnone]
      · rw [hc]
  · constructor
    · rintro ⟨out, hout⟩
      obtain ⟨entries, chunkFiles, idx, hce, hgc, hie, hmi, _⟩ :=
        block.gatherFileStats_ok_elim hout
      have hgd : fs.chunkEntries.getD [] = entries := by rw [hce]; rfl
      refine ⟨by simp [hce], ?_, ?_, ?_, hmi⟩
      · intro e he
        rw [hgd] at he
        obtain ⟨f, hok, _⟩ := block.gatherChunkFiles_ok_mem hgc e he
        obtain ⟨fi, hfi, _, hsome⟩ := block.chunkFileEntry_ok_iff.1 hok
        have hdir : fi.isDir = false := by
          have := hnd e (by rw [hgd]; exact he)
          rw [hfi] at this
          simpa using this
        exact ⟨by simp [hfi], fun hc => hsome ⟨hc, hdir⟩⟩
      · obtain ⟨fi, hfi, _, _⟩ := block.indexFileEntry_ok_iff.1 hie
        simp [hfi]
      · obtain ⟨fi, hfi, _, hsome⟩ := block.indexFileEntry_ok_iff.1 hie
        exact hsome
    · rintro ⟨hce, hchunks, hidx, hidxhash, hmeta⟩
      obtain ⟨entries, hentries⟩ := Option.isSome_iff_exists.1 hce
      have hgd : fs.chunkEntries.getD [] = entries := by rw [hentries]; rfl
      have hall : ∀ e ∈ entries, ∃ f, block.chunkFileEntry fs hf e = .ok f := by
        intro e he
        obtain ⟨hinfo, hhash⟩ := hchunks e (by rw [hgd]; exact he)
        obtain ⟨fi, hfi⟩ := Option.isSome_iff_exists.1 hinfo
        have hdir : fi.isDir = false := by
          have := hnd e (by rw [hgd]; exact he)
          rw [hfi] at this
          simpa using this
        refine ⟨_, block.chunkFileEntry_ok_iff.2 ⟨fi, hfi, rfl, fun hcc => hhash hcc.1⟩⟩
      obtain ⟨chunkFiles, hgc⟩ := block.gatherChunkFiles_ok_exists hall
      obtain ⟨fi, hfi⟩ := Option.isSome_iff_exists.1 hidx
      have hidxok : ∃ f, block.indexFileEntry fs hf = .ok f := by
        refine ⟨_, block.indexFileEntry_ok_iff.2 ⟨fi, hfi, rfl, hidxhash⟩⟩
      obtain ⟨idx, hie⟩ := hidxok
      obtain ⟨mi, hmi⟩ := Option.isSome_iff_exists.1 hmeta
      refine ⟨List.insertionSort metadata.fileLe (chunkFiles ++
        [idx, { relPath := metadata.MetaFilename, sizeBytes := 0, hash := none }]), ?_⟩
      unfold block.GatherFileStats
      simp only [hentries, hgc, hie, hmi]

/-- A concrete local block directory with one chunk segment file, an index
file and a descriptor file, with a hash oracle that hashes every path. -/
def fsC : block.BlockFS :=
  { chunkEntries := some [{ name := "000001", info := some { size := 4096, isDir := false } }],
    indexInfo := some { size := 100, isDir := false },
    metaInfo := some { size := 0, isDir := false },
    calcHash := fun p => some { func := metadata.HashFunc.sha256, value := p } }

/-- Concrete check of gatherFileStats_manifest: on the concrete block
directory the collection succeeds, and the descriptor entry with no size
and no hash is a member of the sorted manifest. -/
theorem gatherFileStats_manifest_witness :
    (({ relPath := metadata.MetaFilename, sizeBytes := 0, hash := none } : metadata.File) ∈
      ([{ relPath := "chunks/000001", sizeBytes := 4096,
          hash := some { func := metadata.HashFunc.sha256, value := "chunks/000001" } },
        { relPath := "index", sizeBytes := 100,
          hash := some { func := metadata.HashFunc.sha256, value := "index" } },
        { relPath := metadata.MetaFilename, sizeBytes := 0, hash := none }] :
        List metadata.File)) ∧
    (∃ out, block.GatherFileStats fsC metadata.HashFunc.sha256 = .ok out) := by
  have h := gatherFileStats_manifest fsC metadata.HashFunc.sha256 (by decide)
  refine ⟨(h.1 _ (by decide)).2.2.2.2.1, h.2.mpr (by decide)⟩

namespace block

/-- Names of objects in the store, as lists of path segments, mirroring
the slash delimited keys of the object store abstraction. -/
abbrev ObjName := List String

/-- The Crockford base32 alphabet of ULID strings. -/
def ulidChars : List Char := "0123456789ABCDEFGHJKMNPQRSTVWXYZ".toList

/-- Modelled from the spec: a BlockID is a 26 character ULID string over
the Crockford base32 alphabet; the parser of the external ulid library
accepts exactly such strings and renders them back unchanged. -/
def ulidParse (s : String) : Option String :=
  if s.length = 26 ∧ s.data.all (fun c => ulidChars.contains c) then some s else none

/-- One store call issued by an upload: the attempted object name and
whether the call succeeded. -/
inductive StoreEv
  | up (n : ObjName) (ok : Bool)
deriving DecidableEq

/-- Errors of the upload operation. -/
inductive UploadErr
  | stat
  | notDir
  | notBlockDir
  | readMeta (e : String)
  | emptyLabels
  | gatherStats (e : GatherErr)
  | uploadChunks
  | uploadIndex
  | uploadMeta
deriving DecidableEq

/-- The environment of one upload invocation: the stat outcome for the
block directory, its basename, the decode outcome of its local
descriptor, the local view of its files, and the per object success
oracle of the store upload calls. -/
structure UploadEnv where
  statOk : Bool
  isDir : Bool
  dirName : String
  metaDecoded : Except String metadata.Meta
  fs : BlockFS
  upOk : ObjName → Bool

/-- The names of the entries of the local chunk directory. -/
def chunkNames (fs : BlockFS) : List String :=
  (fs.chunkEntries.getD []).map (fun e => e.name)

/-- Sequential upload of a list of objects, aborting at the first failing
store call. Modelled from the spec: objstore.UploadDir and
objstore.UploadFile are external per file transfer conveniences whose
first failing store call fails the operation. -/
def uploadSeq (upOk : ObjName → Bool) (err : UploadErr) :
    List ObjName → Except UploadErr Unit × List StoreEv
  | [] => (.ok (), [])
  | n :: rest =>
    if upOk n then
      let r := uploadSeq upOk err rest
      (r.1, .up n true :: r.2)
    else (.error err, [.up n false])

/-- upload models block.upload: stat and validate the directory, parse its
basename as a block id, read and validate the local descriptor, check the
external labels when asked to, gather the file manifest, then upload the
chunk directory, the index file and, last, the re-encoded descriptor,
returning the trace of store upload calls issued. -/
def upload (env : UploadEnv) (hf : metadata.HashFunc) (checkExternalLabels : Bool) :
    Except UploadErr Unit × List StoreEv :=
  if env.statOk = false then (.error .stat, [])
  else if env.isDir = false then (.error .notDir, [])
  else
    match ulidParse env.dirName with
    | none => (.error .notBlockDir, [])
    | some id =>
      match metadata.Read env.metaDecoded with
      | .error e => (.error (.readMeta e), [])
      | .ok meta =>
        if checkExternalLabels ∧ (meta.thanos.labels.getD []).isEmpty = true then
          (.error .emptyLabels, [])
        else
          match GatherFileStats env.fs hf with
          | .error e => (.error (.gatherStats e), [])
          | .ok _files =>
            let r1 := uploadSeq env.upOk .uploadChunks
              ((chunkNames env.fs).map (fun c => [id, ChunksDirname, c]))
            match r1.1 with
            | .error e => (.error e, r1.2)
            | .ok _ =>
              if env.upOk [id, IndexFilename] = false then
                (.error .uploadIndex, r1.2 ++ [.up [id, IndexFilename] false])
              else if env.upOk [id, metadata.MetaFilename] = false then
                (.error .uploadMeta, r1.2 ++ [.up [id, IndexFilename] true,
                  .up [id, metadata.MetaFilename] false])
              else
                (.ok (), r1.2 ++ [.up [id, IndexFilename] true,
                  .up [id, metadata.MetaFilename] true])

/-- Upload models block.Upload: upload with the external label check. -/
def Upload (env : UploadEnv) (hf : metadata.HashFunc) : Except UploadErr Unit × List StoreEv :=
  upload env hf true

/-- UploadPromBlock models block.UploadPromBlock: upload without the
external label check. -/
def UploadPromBlock (env : UploadEnv) (hf : metadata.HashFunc) :
    Except UploadErr Unit × List StoreEv :=
  upload env hf false

theorem uploadSeq_ok_iff {upOk : ObjName → Bool} {err : UploadErr} :
    ∀ l, (uploadSeq upOk err l).1 = .ok () ↔ ∀ n ∈ l, upOk n = true := by
  intro l
  induction l with
  | nil => simp [uploadSeq]
  | cons n rest ih =>
    by_cases h : upOk n = true
    · simp [uploadSeq, h, ih]
    · simp [uploadSeq, h]

theorem uploadSeq_ok_trace {upOk : ObjName → Bool} {err : UploadErr} :
    ∀ l, (∀ n ∈ l, upOk n = true) →
      uploadSeq upOk err l = (.ok (), l.map (fun n => .up n true)) := by
  intro l
  induction l with
  | nil => intro _; rfl
  | cons n rest ih =>
    intro h
    have hn := h n (List.mem_cons_self _ _)
    simp [uploadSeq, hn, ih (fun m hm => h m (List.mem_cons_of_mem _ hm))]

theorem uploadSeq_trace_names {upOk : ObjName → Bool} {err : UploadErr} :
    ∀ l (ev : StoreEv), ev ∈ (uploadSeq upOk err l).2 → ∃ n ∈ l, ∃ b, ev = .up n b := by
  intro l
  induction l with
  | nil => intro ev h; simp [uploadSeq] at h
  | cons n rest ih =>
    intro ev h
    by_cases hn : upOk n = true
    · simp only [uploadSeq, if_pos hn] at h
      rcases List.mem_cons.1 h with rfl | h'
      · exact ⟨n, List.mem_cons_self _ _, true, rfl⟩
      · obtain ⟨m, hm, b, hb⟩ := ih ev h'
        exact ⟨m, List.mem_cons_of_mem _ hm, b, hb⟩
    · simp only [uploadSeq, if_neg hn] at h
      rcases List.mem_singleton.1 h with rfl
      exact ⟨n, List.mem_cons_self _ _, false, rfl⟩

end block

namespace block

theorem upload_shape (env : UploadEnv) (hf : metadata.HashFunc) (cl : Bool) (id : String)
    (hid : ulidParse env.dirName = some id) :
    (upload env hf cl).2 = [] ∨
    (∀ ev ∈ (upload env hf cl).2, ∃ n ∈ (chunkNames env.fs).map
        (fun c => ([id, ChunksDirname, c] : ObjName)), ∃ b, ev = .up n b) ∨
    ((∀ c ∈ chunkNames env.fs, env.upOk [id, ChunksDirname, c] = true) ∧
      env.upOk [id, IndexFilename] = false ∧
      (upload env hf cl).2 = ((chunkNames env.fs).map
        (fun c => StoreEv.up [id, ChunksDirname, c] true)) ++
        [.up [id, IndexFilename] false]) ∨
    ((∀ c ∈ chunkNames env.fs, env.upOk [id, ChunksDirname, c] = true) ∧
      env.upOk [id, IndexFilename] = true ∧
      (upload env hf cl).2 = ((chunkNames env.fs).map
        (fun c => StoreEv.up [id, ChunksDirname, c] true)) ++
        [.up [id, IndexFilename] true,
         .up [id, metadata.MetaFilename] (env.upOk [id, metadata.MetaFilename])]) := by
  by_cases hstat : env.statOk = false
  · left
    simp [upload, hstat]
  by_cases hdirf : env.isDir = false
  · left
    simp [upload, hstat, hdirf]
  cases hread : metadata.Read env.metaDecoded with
  | error e =>
    left
    simp [upload, hstat, hdirf, hid, hread]
  | ok meta =>
    by_cases hlab : cl = true ∧ meta.thanos.labels.getD [] = []
    · left
      have hlab' : cl = true ∧ (meta.thanos.labels.getD []).isEmpty = true := by
        simp [hlab.1, hlab.2]
      simp [upload, hstat, hdirf, hid, hread, hlab']
    cases hg : GatherFileStats env.fs hf with
    | error e =>
      left
      simp [upload, hstat, hdirf, hid, hread, hlab, hg]
    | ok files =>
      by_cases hall : ∀ n ∈ (chunkNames env.fs).map
          (fun c => ([id, ChunksDirname, c] : ObjName)), env.upOk n = true
      · have hallc : ∀ c ∈ chunkNames env.fs, env.upOk [id, ChunksDirname, c] = true := by
          intro c hc
          exact hall _ (List.mem_map_of_mem _ hc)
        have hseq := @uploadSeq_ok_trace env.upOk UploadErr.uploadChunks
          ((chunkNames env.fs).map (fun c => ([id, ChunksDirname, c] : ObjName))) hall
        by_cases hidx : env.upOk [id, IndexFilename] = false
        · right; right; left
          refine ⟨hallc, hidx, ?_⟩
          simp [upload, hstat, hdirf, hid, hread, hlab, hg, hseq, hidx, List.map_map,
            Function.comp]
        · right; right; right
          refine ⟨hallc, by simpa using hidx, ?_⟩
          cases hmeta : env.upOk [id, metadata.MetaFilename] with
          | false =>
            simp [upload, hstat, hdirf, hid, hread, hlab, hg, hseq, hidx, hmeta,
              List.map_map, Function.comp]
          | true =>
            simp [upload, hstat, hdirf, hid, hread, hlab, hg, hseq, hidx, hmeta,
              List.map_map, Function.comp]
      · right; left
        intro ev hev
        cases hr : (uploadSeq env.upOk .uploadChunks ((chunkNames env.fs).map
            (fun c => ([id, ChunksDirname, c] : ObjName)))).1 with
        | ok u =>
          cases u
          exact absurd ((uploadSeq_ok_iff _).1 hr) hall
        | error e2 =>
          have htr : (upload env hf cl).2 = (uploadSeq env.upOk .uploadChunks
              ((chunkNames env.fs).map (fun c => ([id, ChunksDirname, c] : ObjName)))).2 := by
            simp [upload, hstat, hdirf, hid, hread, hlab, hg, hr]
          rw [htr] at hev
          exact uploadSeq_trace_names _ ev hev

end block

/-- Claim C1: on a block directory whose basename parses as a block id,
the descriptor upload call to id/meta.json appears in the trace only as
the very last call, after a successful upload call for every chunk
segment object under id/chunks/ and for id/index; and if any chunk or
index upload fails, no call for id/meta.json is ever issued, so the
descriptor is never observable before all content objects are. -/
theorem upload_meta_last (env : block.UploadEnv) (hf : metadata.HashFunc)
    (checkExternalLabels : Bool) (id : String)
    (hid : block.ulidParse env.dirName = some id) :
    ((∃ b, block.StoreEv.up [id, metadata.MetaFilename] b ∈
        (block.upload env hf checkExternalLabels).2) →
      ((block.upload env hf checkExternalLabels).2 =
        ((block.chunkNames env.fs).map
          (fun c => block.StoreEv.up [id, block.ChunksDirname, c] true)) ++
        [block.StoreEv.up [id, block.IndexFilename] true,
         block.StoreEv.up [id, metadata.MetaFilename]
           (env.upOk [id, metadata.MetaFilename])] ∧
       (∀ c ∈ block.chunkNames env.fs, env.upOk [id, block.ChunksDirname, c] = true) ∧
       env.upOk [id, block.IndexFilename] = true)) ∧
    (((∃ c ∈ block.chunkNames env.fs, env.upOk [id, block.ChunksDirname, c] = false) ∨
        env.upOk [id, block.IndexFilename] = false) →
      ∀ b, block.StoreEv.up [id, metadata.MetaFilename] b ∉
        (block.upload env hf checkExternalLabels).2) := by
  have hshape := block.upload_shape env hf checkExternalLabels id hid
  constructor
  · rintro ⟨b, hb⟩
    rcases hshape with h0 | h1 | ⟨hallc, hidx, htr⟩ | ⟨hallc, hidx, htr⟩
    · rw [h0] at hb
      exact absurd hb (by simp)
    · obtain ⟨n, hn, b', hev⟩ := h1 _ hb
      obtain ⟨c, _, rfl⟩ := List.mem_map.1 hn
      simp at hev
    · rw [htr] at hb
      rcases List.mem_append.1 hb with hc | hc
      · obtain ⟨c, _, hev⟩ := List.mem_map.1 hc
        simp at hev
      · have hev := List.mem_singleton.1 hc
        simp [metadata.MetaFilename, block.IndexFilename] at hev
    · exact ⟨htr, hallc, hidx⟩
  · intro hfail b hb
    rcases hshape with h0 | h1 | ⟨hallc, hidx, htr⟩ | ⟨hallc, hidx, htr⟩
    · rw [h0] at hb
      exact absurd hb (by simp)
    · obtain ⟨n, hn, b', hev⟩ := h1 _ hb
      obtain ⟨c, _, rfl⟩ := List.mem_map.1 hn
      simp at hev
    · rw [htr] at hb
      rcases List.mem_append.1 hb with hc | hc
      · obtain ⟨c, _, hev⟩ := List.mem_map.1 hc
        simp at hev
      · have hev := List.mem_singleton.1 hc
        simp [metadata.MetaFilename, block.IndexFilename] at hev
    · rcases hfail with ⟨c, hc, hfalse⟩ | hfalse
      · rw [hallc c hc] at hfalse
        exact absurd hfalse (by simp)
      · rw [hidx] at hfalse
        exact absurd hfalse (by simp)

/-- A valid descriptor with non empty labels, as found in a healthy local
block directory. -/
def metaGood : metadata.Meta :=
  { ulid := "01BX5ZZKBKACTAV9WEVGEMMVRZ", minTime := 0, maxTime := 1, version := 1,
    thanos := { version := 1, labels := some [("tenant", "a")], downsampleResolution := 0,
                source := "sidecar", files := [], uploadTime := 0 } }

/-- A concrete upload environment: a valid block directory named by a
ULID, a healthy descriptor and a store that accepts every upload. -/
def envU : block.UploadEnv :=
  { statOk := true, isDir := true, dirName := "01BX5ZZKBKACTAV9WEVGEMMVRZ",
    metaDecoded := .ok metaGood, fs := fsC, upOk := fun _ => true }

/-- The same environment with a store that rejects the upload of the
chunk segment object. -/
def envUFail : block.UploadEnv :=
  { envU with upOk := fun n => n != ["01BX5ZZKBKACTAV9WEVGEMMVRZ", "chunks", "000001"] }

/-- Concrete check of upload_meta_last: on the healthy environment the
descriptor upload is the last call after the chunk and index uploads, and
when the chunk upload fails no descriptor upload call is ever issued. -/
theorem upload_meta_last_witness :
    (block.upload envU metadata.HashFunc.noneFunc true).2 =
      [block.StoreEv.up ["01BX5ZZKBKACTAV9WEVGEMMVRZ", "chunks", "000001"] true,
       block.StoreEv.up ["01BX5ZZKBKACTAV9WEVGEMMVRZ", "index"] true,
       block.StoreEv.up ["01BX5ZZKBKACTAV9WEVGEMMVRZ", "meta.json"] true] ∧
    (∀ b, block.StoreEv.up ["01BX5ZZKBKACTAV9WEVGEMMVRZ", metadata.MetaFilename] b ∉
      (block.upload envUFail metadata.HashFunc.noneFunc true).2) := by
  have h1 := upload_meta_last envU metadata.HashFunc.noneFunc true
    "01BX5ZZKBKACTAV9WEVGEMMVRZ" (by decide)
  have h2 := upload_meta_last envUFail metadata.HashFunc.noneFunc true
    "01BX5ZZKBKACTAV9WEVGEMMVRZ" (by decide)
  constructor
  · have ht := (h1.1 ⟨true, by decide⟩).1
    rw [ht]
    decide
  · exact h2.2 (Or.inl ⟨"000001", by decide, by decide⟩)

/-- Claim C5: on a valid local block directory whose decoded descriptor
has an empty labels mapping, Upload (the label checking flavor) fails
with the empty labels error and issues no store upload call at all, so no
remote object is created or mutated. -/
theorem upload_empty_labels_rejected (env : block.UploadEnv) (hf : metadata.HashFunc)
    (hstat : env.statOk = true) (hdir : env.isDir = true)
    (id : String) (hid : block.ulidParse env.dirName = some id)
    (m : metadata.Meta) (hmeta : metadata.Read env.metaDecoded = .ok m)
    (hempty : m.thanos.labels = some []) :
    block.Upload env hf = (.error .emptyLabels, []) := by
  simp [block.Upload, block.upload, hstat, hdir, hid, hmeta, hempty]

/-- A valid descriptor whose labels mapping is empty. -/
def metaEmptyLabels : metadata.Meta :=
  { metaGood with thanos := { metaGood.thanos with labels := some [] } }

/-- The healthy upload environment with the empty labels descriptor. -/
def envEmpty : block.UploadEnv := { envU with metaDecoded := .ok metaEmptyLabels }

/-- Concrete check of upload_empty_labels_rejected: the concrete empty
labels block directory is rejected without any store call. -/
theorem upload_empty_labels_rejected_witness :
    block.Upload envEmpty metadata.HashFunc.noneFunc = (.error .emptyLabels, []) :=
  upload_empty_labels_rejected envEmpty metadata.HashFunc.noneFunc rfl rfl
    "01BX5ZZKBKACTAV9WEVGEMMVRZ" (by decide) metaEmptyLabels (by decide) (by decide)

namespace metadata

/-- Modelled from the spec: the deletion mark object filename under a
block prefix (the mark schemas live in pkg/block/metadata outside the
given sources). -/
def DeletionMarkFilename : String := "deletion-mark.json"

/-- Modelled from the spec: the no compact mark object filename. -/
def NoCompactMarkFilename : String := "no-compact-mark.json"

/-- Modelled from the spec: the no downsample mark object filename. -/
def NoDownsampleMarkFilename : String := "no-downsample-mark.json"

/-- Modelled from the spec: a deletion mark records the block id, the
unix time of marking, a schema version and free text details. -/
structure DeletionMark where
  id : String
  deletionTime : Int
  version : Int
  details : String
deriving DecidableEq

/-- Modelled from the spec: a no compact mark additionally records a
reason; values outside the known enumeration are stored as opaque
strings. -/
structure NoCompactMark where
  id : String
  version : Int
  noCompactTime : Int
  reason : String
  details : String
deriving DecidableEq

/-- Modelled from the spec: a no downsample mark, shaped like the no
compact one. -/
structure NoDownsampleMark where
  id : String
  version : Int
  noDownsampleTime : Int
  reason : String
  details : String
deriving DecidableEq

/-- The single supported deletion mark schema version. -/
def DeletionMarkVersion1 : Int := 1

/-- The single supported no compact mark schema version. -/
def NoCompactMarkVersion1 : Int := 1

/-- The single supported no downsample mark schema version. -/
def NoDownsampleMarkVersion1 : Int := 1

end metadata

namespace block

/-- The content of a mark object in the store. -/
inductive ObjData
  | delMark (m : metadata.DeletionMark)
  | noCompactMark (m : metadata.NoCompactMark)
  | noDownsampleMark (m : metadata.NoDownsampleMark)
deriving DecidableEq

/-- The store and counter state a mark operation acts on: the bucket is a
list of named objects and the counter models the caller supplied metric
counter. -/
structure MarkState where
  bkt : List (ObjName × ObjData)
  counter : Nat
deriving DecidableEq

/-- Whether the bucket holds an object with the given name; models the
exists call of the store client. -/
def containsKey (b : List (ObjName × ObjData)) (n : ObjName) : Bool :=
  b.any (fun e => e.1 == n)

/-- Errors of the mark operations: a failing exists check, a failing
upload, or a failing deletion. -/
inductive MarkErr
  | existsCheck
  | upload
  | delete
deriving DecidableEq

/-- MarkForDeletion models block.MarkForDeletion: check existence of the
deletion mark first and return success without uploading when it already
exists; otherwise marshal a fresh mark carrying the current unix time and
upload it, incrementing the caller counter only after a successful
upload. The Boolean oracles model a failing exists call and a failing
upload. -/
def MarkForDeletion (existsFails uploadFails : Bool) (now : Int) (id details : String)
    (s : MarkState) : Except MarkErr Unit × MarkState :=
  let markFile : ObjName := [id, metadata.DeletionMarkFilename]
  if existsFails then (.error .existsCheck, s)
  else if containsKey s.bkt markFile then (.ok (), s)
  else if uploadFails then (.error .upload, s)
  else (.ok (), { bkt := s.bkt ++ [(markFile, .delMark
    { id := id, deletionTime := now, version := metadata.DeletionMarkVersion1,
      details := details })], counter := s.counter + 1 })

/-- MarkForNoCompact models block.MarkForNoCompact, with the same
structure as MarkForDeletion. -/
def MarkForNoCompact (existsFails uploadFails : Bool) (now : Int)
    (id reason details : String) (s : MarkState) : Except MarkErr Unit × MarkState :=
  let markFile : ObjName := [id, metadata.NoCompactMarkFilename]
  if existsFails then (.error .existsCheck, s)
  else if containsKey s.bkt markFile then (.ok (), s)
  else if uploadFails then (.error .upload, s)
  else (.ok (), { bkt := s.bkt ++ [(markFile, .noCompactMark
    { id := id, version := metadata.NoCompactMarkVersion1, noCompactTime := now,
      reason := reason, details := details })], counter := s.counter + 1 })

/-- MarkForNoDownsample models block.MarkForNoDownsample, with the same
structure as MarkForDeletion. -/
def MarkForNoDownsample (existsFails uploadFails : Bool) (now : Int)
    (id reason details : String) (s : MarkState) : Except MarkErr Unit × MarkState :=
  let markFile : ObjName := [id, metadata.NoDownsampleMarkFilename]
  if existsFails then (.error .existsCheck, s)
  else if containsKey s.bkt markFile then (.ok (), s)
  else if uploadFails then (.error .upload, s)
  else (.ok (), { bkt := s.bkt ++ [(markFile, .noDownsampleMark
    { id := id, version := metadata.NoDownsampleMarkVersion1, noDownsampleTime := now,
      reason := reason, details := details })], counter := s.counter + 1 })

/-- RemoveMark models block.RemoveMark: check existence first and return
success without deleting when the mark is absent; otherwise delete it and
increment the caller counter only after a successful deletion. -/
def RemoveMark (existsFails deleteFails : Bool) (id markedFilename : String)
    (s : MarkState) : Except MarkErr Unit × MarkState :=
  let markedFile : ObjName := [id, markedFilename]
  if existsFails then (.error .existsCheck, s)
  else if containsKey s.bkt markedFile = false then (.ok (), s)
  else if deleteFails then (.error .delete, s)
  else (.ok (), { bkt := s.bkt.filter (fun e => e.1 != markedFile),
                  counter := s.counter + 1 })

theorem append_singleton_ne {α : Type} (l : List α) (x : α) : l ++ [x] ≠ l := by
  intro h
  have hl := congrArg List.length h
  simp at hl

theorem filter_ne_of_mem {α : Type} (p : α → Bool) (l : List α) (a : α)
    (ha : a ∈ l) (hpa : p a = false) : l.filter p ≠ l := by
  intro h
  have hmem : a ∈ l.filter p := by rw [h]; exact ha
  have := (List.mem_filter.mp hmem).2
  rw [hpa] at this
  exact absurd this (by simp)

theorem containsKey_exists {b : List (ObjName × ObjData)} {n : ObjName}
    (h : containsKey b n = true) : ∃ e ∈ b, e.1 = n := by
  obtain ⟨e, he, heq⟩ := List.any_eq_true.1 h
  exact ⟨e, he, by simpa using heq⟩

end block

/-- Claim C6: the mark operations are idempotent. When the mark object
already exists, each of MarkForDeletion, MarkForNoCompact and
MarkForNoDownsample performs no upload and returns success with the store
state unchanged, so a second call with different details or a different
time leaves the stored mark, including its original timestamp, untouched
(the conclusion holds for every details, reason, time and upload oracle);
and RemoveMark on an absent mark performs no deletion and returns
success. -/
theorem mark_idempotent (s : block.MarkState) (id details d2 d3 reason2 reason3 : String)
    (now : Int) (u1 u2 u3 df : Bool) (mf : String)
    (h1 : block.containsKey s.bkt [id, metadata.DeletionMarkFilename] = true)
    (h2 : block.containsKey s.bkt [id, metadata.NoCompactMarkFilename] = true)
    (h3 : block.containsKey s.bkt [id, metadata.NoDownsampleMarkFilename] = true)
    (h4 : block.containsKey s.bkt [id, mf] = false) :
    block.MarkForDeletion false u1 now id details s = (.ok (), s) ∧
    block.MarkForNoCompact false u2 now id reason2 d2 s = (.ok (), s) ∧
    block.MarkForNoDownsample false u3 now id reason3 d3 s = (.ok (), s) ∧
    block.RemoveMark false df id mf s = (.ok (), s) := by
  refine ⟨?_, ?_, ?_, ?_⟩
  · simp [block.MarkForDeletion, h1]
  · simp [block.MarkForNoCompact, h2]
  · simp [block.MarkForNoDownsample, h3]
  · simp [block.RemoveMark, h4]

/-- A concrete store state holding all three marks for one block and a
counter at 7. -/
def sMarks : block.MarkState :=
  { bkt := [(["01BX5ZZKBKACTAV9WEVGEMMVRZ", "deletion-mark.json"],
      .delMark { id := "01BX5ZZKBKACTAV9WEVGEMMVRZ", deletionTime := 100, version := 1,
                 details := "first" }),
     (["01BX5ZZKBKACTAV9WEVGEMMVRZ", "no-compact-mark.json"],
      .noCompactMark { id := "01BX5ZZKBKACTAV9WEVGEMMVRZ", version := 1, noCompactTime := 100,
                       reason := "manual", details := "first" }),
     (["01BX5ZZKBKACTAV9WEVGEMMVRZ", "no-downsample-mark.json"],
      .noDownsampleMark { id := "01BX5ZZKBKACTAV9WEVGEMMVRZ", version := 1,
                          noDownsampleTime := 100, reason := "manual", details := "first" })],
    counter := 7 }

/-- Concrete check of mark_idempotent: re-marking the already marked
block with different details at a later time changes nothing, and
removing an absent mark succeeds without change. -/
theorem mark_idempotent_witness :
    block.MarkForDeletion false false 999 "01BX5ZZKBKACTAV9WEVGEMMVRZ" "second" sMarks =
      (.ok (), sMarks) ∧
    block.MarkForNoCompact false false 999 "01BX5ZZKBKACTAV9WEVGEMMVRZ" "retention" "second"
      sMarks = (.ok (), sMarks) ∧
    block.MarkForNoDownsample false false 999 "01BX5ZZKBKACTAV9WEVGEMMVRZ" "retention" "second"
      sMarks = (.ok (), sMarks) ∧
    block.RemoveMark false false "01BX5ZZKBKACTAV9WEVGEMMVRZ" "no-such-mark.json" sMarks =
      (.ok (), sMarks) :=
  mark_idempotent sMarks "01BX5ZZKBKACTAV9WEVGEMMVRZ" "second" "second" "second"
    "retention" "retention" 999 false false false false "no-such-mark.json"
    (by decide) (by decide) (by decide) (by decide)

/-- Claim C10: for every mark operation the caller supplied counter is
incremented exactly when the store state actually changed: either the
whole state (bucket and counter) is returned unchanged — the already
exists and already absent no-op paths and every error path — or the
bucket changed, the counter was incremented by exactly one, and the
operation succeeded (a new mark was uploaded, or an existing mark was
deleted). -/
theorem mark_counter_tracks_changes (e u df : Bool) (now : Int)
    (id details reason mf : String) (s : block.MarkState) :
    ((block.MarkForDeletion e u now id details s).2 = s ∨
      ((block.MarkForDeletion e u now id details s).2.bkt ≠ s.bkt ∧
       (block.MarkForDeletion e u now id details s).2.counter = s.counter + 1 ∧
       (block.MarkForDeletion e u now id details s).1 = .ok ())) ∧
    ((block.MarkForNoCompact e u now id reason details s).2 = s ∨
      ((block.MarkForNoCompact e u now id reason details s).2.bkt ≠ s.bkt ∧
       (block.MarkForNoCompact e u now id reason details s).2.counter = s.counter + 1 ∧
       (block.MarkForNoCompact e u now id reason details s).1 = .ok ())) ∧
    ((block.MarkForNoDownsample e u now id reason details s).2 = s ∨
      ((block.MarkForNoDownsample e u now id reason details s).2.bkt ≠ s.bkt ∧
       (block.MarkForNoDownsample e u now id reason details s).2.counter = s.counter + 1 ∧
       (block.MarkForNoDownsample e u now id reason details s).1 = .ok ())) ∧
    ((block.RemoveMark e df id mf s).2 = s ∨
      ((block.RemoveMark e df id mf s).2.bkt ≠ s.bkt ∧
       (block.RemoveMark e df id mf s).2.counter = s.counter + 1 ∧
       (block.RemoveMark e df id mf s).1 = .ok ())) := by
  refine ⟨?_, ?_, ?_, ?_⟩
  · by_cases he : e = true
    · left; simp [block.MarkForDeletion, he]
    · by_cases hc : block.containsKey s.bkt [id, metadata.DeletionMarkFilename] = true
      · left; simp [block.MarkForDeletion, he, hc]
      · by_cases hu : u = true
        · left; simp [block.MarkForDeletion, he, hc, hu]
        · right
          refine ⟨?_, ?_, ?_⟩ <;>
            simp [block.MarkForDeletion, he, hc, hu, block.append_singleton_ne]
  · by_cases he : e = true
    · left; simp [block.MarkForNoCompact, he]
    · by_cases hc : block.containsKey s.bkt [id, metadata.NoCompactMarkFilename] = true
      · left; simp [block.MarkForNoCompact, he, hc]
      · by_cases hu : u = true
        · left; simp [block.MarkForNoCompact, he, hc, hu]
        · right
          refine ⟨?_, ?_, ?_⟩ <;>
            simp [block.MarkForNoCompact, he, hc, hu, block.append_singleton_ne]
  · by_cases he : e = true
    · left; simp [block.MarkForNoDownsample, he]
    · by_cases hc : block.containsKey s.bkt [id, metadata.NoDownsampleMarkFilename] = true
      · left; simp [block.MarkForNoDownsample, he, hc]
      · by_cases hu : u = true
        · left; simp [block.MarkForNoDownsample, he, hc, hu]
        · right
          refine ⟨?_, ?_, ?_⟩ <;>
            simp [block.MarkForNoDownsample, he, hc, hu, block.append_singleton_ne]
  · by_cases he : e = true
    · left; simp [block.RemoveMark, he]
    · by_cases hc : block.containsKey s.bkt [id, mf] = true
      · by_cases hd : df = true
        · left; simp [block.RemoveMark, he, hc, hd]
        · right
          obtain ⟨entry, hentry, hname⟩ := block.containsKey_exists hc
          have hkeep : (fun x : block.ObjName × block.ObjData => x.1 != [id, mf]) entry
              = false := by
            simp [hname]
          have hfil := block.filter_ne_of_mem
            (fun x : block.ObjName × block.ObjData => x.1 != [id, mf]) s.bkt entry hentry hkeep
          refine ⟨?_, ?_, ?_⟩ <;> simp [block.RemoveMark, he, hc, hd, hfil]
      · left
        simp [block.RemoveMark, he, hc]

namespace block

/-- Errors of the download operation. -/
inductive DownloadErr
  | mkdir
  | fetchMeta
  | readMeta (e : String)
  | bulk
  | mkdirChunks
deriving DecidableEq

/-- The environment of one download invocation: whether creating the
destination directory succeeds, the names of the objects in the store,
the per object success oracle of the store get calls, the decode outcome
of the fetched descriptor, the local hash oracle for already present
destination files (none models a read or hash failure), and the state of
the local chunk directory after the bulk download. -/
structure DownloadEnv where
  mkdirOk : Bool
  bkt : List ObjName
  fetchOk : ObjName → Bool
  metaDecoded : Except String metadata.Meta
  localHash : String → Option metadata.ObjectHash
  chunksDirMissing : Bool
  mkdirChunksOk : Bool

/-- The path of an object relative to the block prefix. -/
def relOf (n : ObjName) : String := String.intercalate "/" n.tail

/-- The skip decision of the download loop for one manifest entry: skip
exactly when the entry carries a hash with a non trivial function and a
non empty relative path, and the local file hashes to the recorded hash;
a read or hash failure (none) and a mismatch both mean no skip. -/
def skipMatch (localHash : String → Option metadata.ObjectHash)
    (fl : metadata.File) : Bool :=
  match fl.hash with
  | none => false
  | some h =>
    if h.func = metadata.HashFunc.noneFunc then false
    else if fl.relPath = "" then false
    else
      match localHash fl.relPath with
      | none => false
      | some actual => h == actual

/-- The ignore set passed to the bulk download: the descriptor path plus
every manifest entry whose local copy already matches its recorded hash. -/
def ignoredPaths (files : List metadata.File)
    (localHash : String → Option metadata.ObjectHash) : List String :=
  metadata.MetaFilename :: (files.filter (skipMatch localHash)).map (fun fl => fl.relPath)

/-- The objects the bulk download fetches: everything under the block
prefix whose relative path is not ignored. Modelled from the spec:
objstore.DownloadDir is an external transfer convenience accepting an
ignore list of relative paths. -/
def bulkList (bkt : List ObjName) (id : String) (ign : List String) : List ObjName :=
  bkt.filter (fun n => [id].isPrefixOf n && decide (2 ≤ n.length) && !(decide (relOf n ∈ ign)))

/-- Sequential fetch of a list of objects, aborting at the first failing
get. -/
def downloadSeq (fetchOk : ObjName → Bool) :
    List ObjName → Except DownloadErr Unit × List ObjName
  | [] => (.ok (), [])
  | n :: rest =>
    if fetchOk n then
      let r := downloadSeq fetchOk rest
      (r.1, n :: r.2)
    else (.error .bulk, [n])

/-- Download models block.Download: create the destination directory,
always fetch the descriptor first, decode it, compute the skip set from
the manifest hashes against the local files, bulk download everything
else under the block prefix, and finally create the local chunk directory
when it is still missing. It returns the trace of store get calls
issued. -/
def Download (env : DownloadEnv) (id : String) : Except DownloadErr Unit × List ObjName :=
  if env.mkdirOk = false then (.error .mkdir, [])
  else if env.fetchOk [id, metadata.MetaFilename] = false then
    (.error .fetchMeta, [[id, metadata.MetaFilename]])
  else
    match metadata.Read env.metaDecoded with
    | .error e => (.error (.readMeta e), [[id, metadata.MetaFilename]])
    | .ok m =>
      let r := downloadSeq env.fetchOk
        (bulkList env.bkt id (ignoredPaths m.thanos.files env.localHash))
      match r.1 with
      | .error e => (.error e, [id, metadata.MetaFilename] :: r.2)
      | .ok _ =>
        if env.chunksDirMissing then
          (if env.mkdirChunksOk then (.ok (), [id, metadata.MetaFilename] :: r.2)
           else (.error .mkdirChunks, [id, metadata.MetaFilename] :: r.2))
        else (.ok (), [id, metadata.MetaFilename] :: r.2)

theorem downloadSeq_ok_iff {fetchOk : ObjName → Bool} :
    ∀ l, (downloadSeq fetchOk l).1 = .ok () ↔ ∀ n ∈ l, fetchOk n = true := by
  intro l
  induction l with
  | nil => simp [downloadSeq]
  | cons n rest ih =>
    by_cases h : fetchOk n = true
    · simp [downloadSeq, h, ih]
    · simp [downloadSeq, h]

theorem downloadSeq_trace_sub {fetchOk : ObjName → Bool} :
    ∀ l (n : ObjName), n ∈ (downloadSeq fetchOk l).2 → n ∈ l := by
  intro l
  induction l with
  | nil => intro n h; simp [downloadSeq] at h
  | cons a rest ih =>
    intro n h
    by_cases ha : fetchOk a = true
    · simp only [downloadSeq, if_pos ha] at h
      rcases List.mem_cons.1 h with rfl | h'
      · exact List.mem_cons_self _ _
      · exact List.mem_cons_of_mem _ (ih n h')
    · simp only [downloadSeq, if_neg ha] at h
      rcases List.mem_singleton.1 h with rfl
      exact List.mem_cons_self _ _

end block

/-- Claim C7: Download always fetches id/meta.json first (never skipped);
the ignore set holds exactly the descriptor path and the manifest entries
carrying a non trivial hash whose local file hashes to the recorded hash,
so a hash mismatch or a local read or hash failure simply leaves the file
in the bulk download; the bulk download fetches only objects under the
block prefix whose relative path is not ignored; and the result is
success exactly when the directory creation, the descriptor fetch, every
bulk get and the chunk directory fix succeed, so a local hash failure
never fails the download. -/
theorem download_meta_first_and_skip (env : block.DownloadEnv) (id : String) :
    (env.mkdirOk = true →
      (block.Download env id).2.head? = some [id, metadata.MetaFilename]) ∧
    (∀ (files : List metadata.File) (p : String),
      p ∈ block.ignoredPaths files env.localHash ↔
        (p = metadata.MetaFilename ∨
          ∃ fl ∈ files, fl.relPath = p ∧ p ≠ "" ∧
            ∃ h, fl.hash = some h ∧ h.func ≠ metadata.HashFunc.noneFunc ∧
              env.localHash p = some h)) ∧
    (∀ m, metadata.Read env.metaDecoded = .ok m → env.mkdirOk = true →
      ∃ rest, (block.Download env id).2 = [id, metadata.MetaFilename] :: rest ∧
        ∀ n ∈ rest, n ∈ env.bkt ∧ [id].isPrefixOf n = true ∧
          block.relOf n ∉ block.ignoredPaths m.thanos.files env.localHash) ∧
    (∀ m, metadata.Read env.metaDecoded = .ok m →
      ((block.Download env id).1 = .ok () ↔
        (env.mkdirOk = true ∧ env.fetchOk [id, metadata.MetaFilename] = true ∧
         (∀ n ∈ block.bulkList env.bkt id
            (block.ignoredPaths m.thanos.files env.localHash), env.fetchOk n = true) ∧
         (env.chunksDirMissing = true → env.mkdirChunksOk = true)))) := by
  refine ⟨?_, ?_, ?_, ?_⟩
  · intro hmk
    by_cases hf : env.fetchOk [id, metadata.MetaFilename] = false
    · simp [block.Download, hmk, hf]
    · cases hread : metadata.Read env.metaDecoded with
      | error e => simp [block.Download, hmk, hf, hread]
      | ok m =>
        cases hr : (block.downloadSeq env.fetchOk (block.bulkList env.bkt id
            (block.ignoredPaths m.thanos.files env.localHash))).1 with
        | error e => simp [block.Download, hmk, hf, hread, hr]
        | ok u =>
          cases u
          by_cases hc : env.chunksDirMissing = true
          · by_cases hmc : env.mkdirChunksOk = true
            · simp [block.Download, hmk, hf, hread, hr, hc, hmc]
            · simp [block.Download, hmk, hf, hread, hr, hc, hmc]
          · simp [block.Download, hmk, hf, hread, hr, hc]
  · intro files p
    constructor
    · intro hp
      rcases List.mem_cons.1 hp with rfl | hp'
      · exact Or.inl rfl
      · obtain ⟨fl, hfl, rfl⟩ := List.mem_map.1 hp'
        have hmem := (List.mem_filter.1 hfl).1
        have hsk := (List.mem_filter.1 hfl).2
        right
        cases hh : fl.hash with
        | none => simp [block.skipMatch, hh] at hsk
        | some h =>
          by_cases hfn : h.func = metadata.HashFunc.noneFunc
          · simp [block.skipMatch, hh, hfn] at hsk
          · by_cases hre : fl.relPath = ""
            · simp [block.skipMatch, hh, hfn, hre] at hsk
            · cases hlh : env.localHash fl.relPath with
            | none => simp [block.skipMatch, hh, hfn, hre, hlh] at hsk
            | some actual =>
              have heq : h = actual := by
                simpa [block.skipMatch, hh, hfn, hre, hlh] using hsk
              exact ⟨fl, hmem, rfl, hre, h, hh, hfn, congrArg some heq.symm⟩
    · intro hp
      rcases hp with rfl | ⟨fl, hmem, hrel, hne, h, hh, hfn, hlocal⟩
      · exact List.mem_cons_self _ _
      · refine List.mem_cons_of_mem _
          (List.mem_map.2 ⟨fl, List.mem_filter.2 ⟨hmem, ?_⟩, hrel⟩)
        simp only [block.skipMatch, hh]
        rw [if_neg hfn, if_neg (by rw [hrel]; exact hne), hrel, hlocal]
        simp
  · intro m hread hmk
    by_cases hf : env.fetchOk [id, metadata.MetaFilename] = false
    · refine ⟨[], by simp [block.Download, hmk, hf], by simp⟩
    · refine ⟨(block.downloadSeq env.fetchOk (block.bulkList env.bkt id
        (block.ignoredPaths m.thanos.files env.localHash))).2, ?_, ?_⟩
      · cases hr : (block.downloadSeq env.fetchOk (block.bulkList env.bkt id
            (block.ignoredPaths m.thanos.files env.localHash))).1 with
        | error e => simp [block.Download, hmk, hf, hread, hr]
        | ok u =>
          cases u
          by_cases hc : env.chunksDirMissing = true
          · by_cases hmc : env.mkdirChunksOk = true
            · simp [block.Download, hmk, hf, hread, hr, hc, hmc]
            · simp [block.Download, hmk, hf, hread, hr, hc, hmc]
          · simp [block.Download, hmk, hf, hread, hr, hc]
      · intro n hn
        have hsub := block.downloadSeq_trace_sub _ n hn
        have hfl := List.mem_filter.1 hsub
        have hcond := hfl.2
        simp only [Bool.and_eq_true, Bool.not_eq_true'] at hcond
        exact ⟨hfl.1, hcond.1.1, by simpa using hcond.2⟩
  · intro m hread
    by_cases hmk : env.mkdirOk = true
    · by_cases hf : env.fetchOk [id, metadata.MetaFilename] = false
      · refine ⟨fun h => absurd h (by simp [block.Download, hmk, hf]), ?_⟩
        rintro ⟨_, hf2, _, _⟩
        rw [hf2] at hf
        exact absurd hf (by simp)
      · have hft : env.fetchOk [id, metadata.MetaFilename] = true := by simpa using hf
        cases hr : (block.downloadSeq env.fetchOk (block.bulkList env.bkt id
            (block.ignoredPaths m.thanos.files env.localHash))).1 with
        | error e =>
          refine ⟨fun h => absurd h (by simp [block.Download, hmk, hf, hread, hr]), ?_⟩
          rintro ⟨_, _, hbulk, _⟩
          have hok := (block.downloadSeq_ok_iff _).2 hbulk
          rw [hr] at hok
          exact absurd hok (by simp)
        | ok u =>
          cases u
          have hbulk := (@block.downloadSeq_ok_iff env.fetchOk _).1 hr
          by_cases hc : env.chunksDirMissing = true
          · by_cases hmc : env.mkdirChunksOk = true
            · exact ⟨fun _ => ⟨hmk, hft, hbulk, fun _ => hmc⟩,
                fun _ => by simp [block.Download, hmk, hf, hread, hr, hc, hmc]⟩
            · refine ⟨fun h =>
                absurd h (by simp [block.Download, hmk, hf, hread, hr, hc, hmc]), ?_⟩
              rintro ⟨_, _, _, hfix⟩
              exact absurd (hfix hc) hmc
          · exact ⟨fun _ => ⟨hmk, hft, hbulk, fun hcc => absurd hcc hc⟩,
              fun _ => by simp [block.Download, hmk, hf, hread, hr, hc]⟩
    · have hmkf : env.mkdirOk = false := by simpa using hmk
      refine ⟨fun h => absurd h (by simp [block.Download, hmkf]), ?_⟩
      rintro ⟨hmk2, _, _, _⟩
      exact absurd hmk2 hmk

/-- A descriptor whose manifest records hashes for the chunk and index
files. -/
def metaFiles : metadata.Meta :=
  { metaGood with thanos := { metaGood.thanos with files :=
      [{ relPath := "chunks/000001", sizeBytes := 4096,
         hash := some { func := metadata.HashFunc.sha256, value := "h1" } },
       { relPath := "index", sizeBytes := 100,
         hash := some { func := metadata.HashFunc.sha256, value := "h2" } },
       { relPath := "meta.json", sizeBytes := 0, hash := none }] } }

/-- A concrete download environment: the store holds the block, every get
succeeds, the local chunk file already matches its recorded hash while
hashing the local index file fails. -/
def envD : block.DownloadEnv :=
  { mkdirOk := true,
    bkt := [["01BX5ZZKBKACTAV9WEVGEMMVRZ", "meta.json"],
            ["01BX5ZZKBKACTAV9WEVGEMMVRZ", "chunks", "000001"],
            ["01BX5ZZKBKACTAV9WEVGEMMVRZ", "index"]],
    fetchOk := fun _ => true,
    metaDecoded := .ok metaFiles,
    localHash := fun p =>
      if p = "chunks/000001" then some { func := metadata.HashFunc.sha256, value := "h1" }
      else none,
    chunksDirMissing := false,
    mkdirChunksOk := true }

/-- Concrete check of download_meta_first_and_skip: the descriptor is
fetched first, the matching local chunk file is in the skip set, and the
download succeeds even though hashing the local index file fails. -/
theorem download_meta_first_and_skip_witness :
    (block.Download envD "01BX5ZZKBKACTAV9WEVGEMMVRZ").2.head? =
      some ["01BX5ZZKBKACTAV9WEVGEMMVRZ", metadata.MetaFilename] ∧
    ("chunks/000001" = metadata.MetaFilename ∨
      ∃ fl ∈ metaFiles.thanos.files, fl.relPath = "chunks/000001" ∧ "chunks/000001" ≠ "" ∧
        ∃ h, fl.hash = some h ∧ h.func ≠ metadata.HashFunc.noneFunc ∧
          envD.localHash "chunks/000001" = some h) ∧
    (block.Download envD "01BX5ZZKBKACTAV9WEVGEMMVRZ").1 = .ok () := by
  have h := download_meta_first_and_skip envD "01BX5ZZKBKACTAV9WEVGEMMVRZ"
  refine ⟨h.1 rfl, (h.2.1 metaFiles.thanos.files "chunks/000001").1 (by decide), ?_⟩
  exact (h.2.2.2 metaFiles (by decide)).2 ⟨rfl, rfl, by decide, fun _ => rfl⟩

namespace block

/-- Errors of the delete operation. -/
inductive DelErr
  | deleteFailed
  | depthExhausted
deriving DecidableEq

/-- Whether the bucket holds an object with the given name; models the
exists call of the store client on a name-only bucket. -/
def containsName (b : List ObjName) (n : ObjName) : Bool :=
  b.any (fun m => m == n)

/-- Remove an object from the bucket. -/
def eraseObj (b : List ObjName) (n : ObjName) : List ObjName :=
  b.filter (fun m => m != n)

/-- One child of a prefix in an Iter listing: a leaf object, or a
directory like sub prefix given by its next segment. -/
inductive IterEnt
  | obj (n : ObjName)
  | sub (s : String)
deriving DecidableEq

/-- The distinct next segments of the objects under a prefix. -/
def childSegs (bkt : List ObjName) (dir : ObjName) : List String :=
  (bkt.filterMap (fun n =>
    if dir.isPrefixOf n && decide (dir.length < n.length) then n.get? dir.length
    else none)).dedup

/-- The entries an Iter call yields for a prefix: per child segment, a
leaf object when the extended name is itself an object, and a sub prefix
entry when strictly longer names extend it. Models the iterate operation
of the store abstraction, where names ending in the directory delimiter
are nested prefixes. -/
def iterEntries (bkt : List ObjName) (dir : ObjName) : List IterEnt :=
  (childSegs bkt dir).flatMap (fun s =>
    (if (dir ++ [s]) ∈ bkt then [IterEnt.obj (dir ++ [s])] else []) ++
    (if bkt.any (fun n => (dir ++ [s]).isPrefixOf n && decide (dir.length + 1 < n.length))
     then [IterEnt.sub s] else []))

/-- The loop body of deleteDirRec over the entries of one Iter listing:
kept names are skipped, leaf objects are deleted (a failing deletion
aborts the iteration), and sub prefixes are recursed into through the
rec argument. Returns the result, the trace of deletions issued and the
resulting bucket. -/
def delLoop (delOk keep : ObjName → Bool)
    (rec2 : ObjName → List ObjName → Except DelErr Unit × List ObjName × List ObjName)
    (dir : ObjName) :
    List IterEnt → List ObjName → Except DelErr Unit × List ObjName × List ObjName
  | [], bkt => (.ok (), [], bkt)
  | .obj n :: es, bkt =>
    if keep n then delLoop delOk keep rec2 dir es bkt
    else if delOk n then
      let r := delLoop delOk keep rec2 dir es (eraseObj bkt n)
      (r.1, n :: r.2.1, r.2.2)
    else (.error .deleteFailed, [n], bkt)
  | .sub s :: es, bkt =>
    let r1 := rec2 (dir ++ [s]) bkt
    match r1.1 with
    | .error e => (.error e, r1.2.1, r1.2.2)
    | .ok _ =>
      let r2 := delLoop delOk keep rec2 dir es r1.2.2
      (r2.1, r1.2.1 ++ r2.2.1, r2.2.2)

/-- deleteDirRec models block.deleteDirRec: iterate the prefix, deleting
every object not kept and recursing into directory like sub prefixes. The
depth argument bounds the recursion; Delete instantiates it with a bound
exceeding the longest name, so the exhaustion branch is unreachable
there. -/
def deleteDirRec (delOk keep : ObjName → Bool) :
    Nat → ObjName → List ObjName → Except DelErr Unit × List ObjName × List ObjName
  | 0, _, bkt => (.error .depthExhausted, [], bkt)
  | d + 1, dir, bkt =>
    delLoop delOk keep (fun dir2 bkt2 => deleteDirRec delOk keep d dir2 bkt2) dir
      (iterEntries bkt dir) bkt

/-- One more than the longest name in the bucket, in segments. -/
def maxNameLen (bkt : List ObjName) : Nat :=
  (bkt.map List.length).foldr max 0

/-- The first step of Delete: delete the descriptor object when it
exists, before anything else. -/
def metaStep (delOk : ObjName → Bool) (metaFile : ObjName) (bkt : List ObjName) :
    Except DelErr Unit × List ObjName × List ObjName :=
  if containsName bkt metaFile then
    if delOk metaFile then (.ok (), [metaFile], eraseObj bkt metaFile)
    else (.error .deleteFailed, [metaFile], bkt)
  else (.ok (), [], bkt)

/-- The last step of Delete: delete the deletion mark when it exists,
after everything else. -/
def delMarkStep (delOk : ObjName → Bool) (markFile : ObjName) (bkt : List ObjName) :
    Except DelErr Unit × List ObjName × List ObjName :=
  if containsName bkt markFile then
    if delOk markFile then (.ok (), [markFile], eraseObj bkt markFile)
    else (.error .deleteFailed, [markFile], bkt)
  else (.ok (), [], bkt)

/-- The keep function Delete passes to the recursive deletion: skip the
descriptor (already deleted first) and the deletion mark (deleted last). -/
def deleteKeep (id : String) : ObjName → Bool :=
  fun n => n == [id, metadata.MetaFilename] || n == [id, metadata.DeletionMarkFilename]

/-- The recursive deletion step of Delete, with a depth bound exceeding
the longest name so the exhaustion branch is unreachable. -/
def deleteRec (delOk : ObjName → Bool) (id : String) (b : List ObjName) :
    Except DelErr Unit × List ObjName × List ObjName :=
  deleteDirRec delOk (deleteKeep id) (maxNameLen b + 1) [id] b

/-- Delete models block.Delete: delete id/meta.json first when present,
then recursively delete everything under the block prefix while keeping
the descriptor (already deleted) and the deletion mark, and finally
delete the deletion mark when present. Returns the result, the trace of
deletion calls issued in order, and the resulting bucket. -/
def Delete (delOk : ObjName → Bool) (id : String) (bkt : List ObjName) :
    Except DelErr Unit × List ObjName × List ObjName :=
  let r1 := metaStep delOk [id, metadata.MetaFilename] bkt
  match r1.1 with
  | .error e => (.error e, r1.2.1, r1.2.2)
  | .ok _ =>
    let r2 := deleteRec delOk id r1.2.2
    match r2.1 with
    | .error e => (.error e, r1.2.1 ++ r2.2.1, r2.2.2)
    | .ok _ =>
      let r3 := delMarkStep delOk [id, metadata.DeletionMarkFilename] r2.2.2
      (r3.1, r1.2.1 ++ r2.2.1 ++ r3.2.1, r3.2.2)

/-- The bucket state reached after a sequence of attempted deletions. -/
def applyDeletes (delOk : ObjName → Bool) (b : List ObjName) :
    List ObjName → List ObjName
  | [] => b
  | n :: tr => applyDeletes delOk (if delOk n then eraseObj b n else b) tr

theorem not_mem_eraseObj (b : List ObjName) (n : ObjName) : n ∉ eraseObj b n := by
  intro h
  have := (List.mem_filter.1 h).2
  simp at this

theorem eraseObj_subset (b : List ObjName) (n : ObjName) : eraseObj b n ⊆ b :=
  fun _ hx => List.mem_of_mem_filter hx

theorem containsName_iff {b : List ObjName} {n : ObjName} :
    containsName b n = true ↔ n ∈ b := by
  constructor
  · intro h
    obtain ⟨m, hm, heq⟩ := List.any_eq_true.1 h
    rwa [show m = n from by simpa using heq] at hm
  · intro h
    exact List.any_eq_true.2 ⟨n, h, by simp⟩

theorem applyDeletes_subset (delOk : ObjName → Bool) :
    ∀ (tr : List ObjName) (b : List ObjName), applyDeletes delOk b tr ⊆ b := by
  intro tr
  induction tr with
  | nil => intro b; exact fun x h => h
  | cons n tr ih =>
    intro b
    show applyDeletes delOk (if delOk n then eraseObj b n else b) tr ⊆ b
    refine (ih _).trans ?_
    by_cases h : delOk n = true
    · rw [if_pos h]
      exact eraseObj_subset b n
    · rw [if_neg h]
      exact fun x hx => hx

end block

namespace block

theorem delLoop_subset (delOk keep : ObjName → Bool)
    (rec2 : ObjName → List ObjName → Except DelErr Unit × List ObjName × List ObjName)
    (hrec : ∀ dir2 b2, (rec2 dir2 b2).2.2 ⊆ b2) (dir : ObjName) :
    ∀ (es : List IterEnt) (bkt : List ObjName),
      (delLoop delOk keep rec2 dir es bkt).2.2 ⊆ bkt := by
  intro es
  induction es with
  | nil => intro bkt; exact fun x h => h
  | cons ent es ih =>
    intro bkt
    cases ent with
    | obj m =>
      by_cases hk : keep m = true
      · simp only [delLoop, if_pos hk]
        exact ih bkt
      · by_cases hd : delOk m = true
        · simp only [delLoop, if_neg hk, if_pos hd]
          exact (ih _).trans (eraseObj_subset bkt m)
        · simp only [delLoop, if_neg hk, if_neg hd]
          exact fun x h => h
    | sub s =>
      cases hr1 : (rec2 (dir ++ [s]) bkt).1 with
      | error e =>
        simp only [delLoop, hr1]
        exact hrec _ _
      | ok u =>
        simp only [delLoop, hr1]
        exact (ih _).trans (hrec _ _)

theorem deleteDirRec_subset (delOk keep : ObjName → Bool) :
    ∀ (d : Nat) (dir : ObjName) (bkt : List ObjName),
      (deleteDirRec delOk keep d dir bkt).2.2 ⊆ bkt := by
  intro d
  induction d with
  | zero => intro dir bkt; exact fun x h => h
  | succ d ih =>
    intro dir bkt
    exact delLoop_subset delOk keep _ (fun dir2 b2 => ih dir2 b2) dir
      (iterEntries bkt dir) bkt

theorem delLoop_trace_keep (delOk keep : ObjName → Bool)
    (rec2 : ObjName → List ObjName → Except DelErr Unit × List ObjName × List ObjName)
    (hrec : ∀ dir2 b2 n, n ∈ (rec2 dir2 b2).2.1 → keep n = false) (dir : ObjName) :
    ∀ (es : List IterEnt) (bkt : List ObjName) (n : ObjName),
      n ∈ (delLoop delOk keep rec2 dir es bkt).2.1 → keep n = false := by
  intro es
  induction es with
  | nil =>
    intro bkt n h
    simp [delLoop] at h
  | cons ent es ih =>
    intro bkt n h
    cases ent with
    | obj m =>
      by_cases hk : keep m = true
      · simp only [delLoop, if_pos hk] at h
        exact ih bkt n h
      · by_cases hd : delOk m = true
        · simp only [delLoop, if_neg hk, if_pos hd] at h
          rcases List.mem_cons.1 h with rfl | h'
          · simpa using hk
          · exact ih _ n h'
        · simp only [delLoop, if_neg hk, if_neg hd] at h
          rcases List.mem_singleton.1 h with rfl
          simpa using hk
    | sub s =>
      cases hr1 : (rec2 (dir ++ [s]) bkt).1 with
      | error e =>
        simp only [delLoop, hr1] at h
        exact hrec _ _ n h
      | ok u =>
        simp only [delLoop, hr1] at h
        rcases List.mem_append.1 h with h' | h'
        · exact hrec _ _ n h'
        · exact ih _ n h'

theorem deleteDirRec_trace_keep (delOk keep : ObjName → Bool) :
    ∀ (d : Nat) (dir : ObjName) (bkt : List ObjName) (n : ObjName),
      n ∈ (deleteDirRec delOk keep d dir bkt).2.1 → keep n = false := by
  intro d
  induction d with
  | zero =>
    intro dir bkt n h
    simp [deleteDirRec] at h
  | succ d ih =>
    intro dir bkt n h
    exact delLoop_trace_keep delOk keep _ (fun dir2 b2 m hm => ih dir2 b2 m hm) dir
      (iterEntries bkt dir) bkt n h

/-- What an entry of one Iter listing accounts for: a leaf object
accounts for itself, a sub prefix entry accounts for every strictly
longer name it is a prefix of. -/
def covers (dir : ObjName) (ent : IterEnt) (n : ObjName) : Prop :=
  match ent with
  | .obj m => n = m
  | .sub s => (dir ++ [s]).isPrefixOf n = true ∧ dir.length + 1 < n.length

theorem coverage {bkt : List ObjName} {dir n : ObjName} (hn : n ∈ bkt)
    (hpre : dir.isPrefixOf n = true) (hlen : dir.length < n.length) :
    ∃ ent ∈ iterEntries bkt dir, covers dir ent n := by
  obtain ⟨t, ht⟩ := List.isPrefixOf_iff_prefix.1 hpre
  cases t with
  | nil =>
    rw [← ht] at hlen
    simp at hlen
  | cons s rest =>
    have hgets : n.get? dir.length = some s := by
      rw [← ht]
      rw [List.get?_append_right (le_refl _)]
      simp
    have hseg : s ∈ childSegs bkt dir := by
      rw [childSegs, List.mem_dedup]
      refine List.mem_filterMap.2 ⟨n, hn, ?_⟩
      rw [if_pos (by simp [hpre, hlen])]
      exact hgets
    by_cases hlen2 : dir.length + 1 < n.length
    · have hpre2 : (dir ++ [s]).isPrefixOf n = true := by
        rw [List.isPrefixOf_iff_prefix]
        exact ⟨rest, by rw [← ht]; simp⟩
      refine ⟨.sub s, ?_, hpre2, hlen2⟩
      rw [iterEntries]
      refine List.mem_flatMap.2 ⟨s, hseg, ?_⟩
      rw [List.mem_append]
      right
      rw [if_pos ?_]
      · exact List.mem_singleton.2 rfl
      · exact List.any_eq_true.2 ⟨n, hn, by simp [hpre2, hlen2]⟩
    · have hlenn : n.length = dir.length + 1 + rest.length := by
        rw [← ht]
        simp [List.length_append]
        omega
      have hrest : rest = [] := by
        have : rest.length = 0 := by omega
        exact List.eq_nil_of_length_eq_zero this
      subst hrest
      have hn' : n = dir ++ [s] := by rw [← ht]
      refine ⟨.obj (dir ++ [s]), ?_, hn'⟩
      rw [iterEntries]
      refine List.mem_flatMap.2 ⟨s, hseg, ?_⟩
      rw [List.mem_append]
      left
      rw [if_pos (by rw [← hn']; exact hn)]
      exact List.mem_singleton.2 rfl

theorem delLoop_clean (delOk keep : ObjName → Bool)
    (rec2 : ObjName → List ObjName → Except DelErr Unit × List ObjName × List ObjName)
    (hrecsub : ∀ dir2 b2, (rec2 dir2 b2).2.2 ⊆ b2)
    (hrecclean : ∀ dir2 b2, (rec2 dir2 b2).1 = .ok () →
      ∀ n ∈ (rec2 dir2 b2).2.2, dir2.isPrefixOf n = true → dir2.length < n.length →
        keep n = true)
    (dir : ObjName) :
    ∀ (es : List IterEnt) (bkt : List ObjName),
      (delLoop delOk keep rec2 dir es bkt).1 = .ok () →
      ∀ n ∈ (delLoop delOk keep rec2 dir es bkt).2.2,
        (∃ ent ∈ es, covers dir ent n) → keep n = true := by
  intro es
  induction es with
  | nil =>
    intro bkt _ n _ hcov
    obtain ⟨ent, hent, _⟩ := hcov
    exact absurd hent (by simp)
  | cons ent es ih =>
    intro bkt hok n hn hcov
    obtain ⟨ent', hent', hcov'⟩ := hcov
    cases ent with
    | obj m =>
      by_cases hk : keep m = true
      · simp only [delLoop, if_pos hk] at hok hn
        rcases List.mem_cons.1 hent' with rfl | hent2
        · have hnm : n = m := hcov'
          subst hnm
          exact hk
        · exact ih bkt hok n hn ⟨ent', hent2, hcov'⟩
      · by_cases hd : delOk m = true
        · simp only [delLoop, if_neg hk, if_pos hd] at hok hn
          rcases List.mem_cons.1 hent' with rfl | hent2
          · have hnm : n = m := hcov'
            subst hnm
            have hnin : n ∈ eraseObj bkt n :=
              delLoop_subset delOk keep rec2 hrecsub dir es _ hn
            exact absurd hnin (not_mem_eraseObj bkt n)
          · exact ih _ hok n hn ⟨ent', hent2, hcov'⟩
        · simp only [delLoop, if_neg hk, if_neg hd] at hok
          exact absurd hok (by simp)
    | sub s =>
      cases hr1 : (rec2 (dir ++ [s]) bkt).1 with
      | error e =>
        simp only [delLoop, hr1] at hok
        exact absurd hok (by simp)
      | ok u =>
        cases u
        simp only [delLoop, hr1] at hok hn
        rcases List.mem_cons.1 hent' with rfl | hent2
        · have hc : (dir ++ [s]).isPrefixOf n = true ∧ dir.length + 1 < n.length := hcov'
          have hnin : n ∈ (rec2 (dir ++ [s]) bkt).2.2 :=
            delLoop_subset delOk keep rec2 hrecsub dir es _ hn
          exact hrecclean _ _ hr1 n hnin hc.1 (by simpa using hc.2)
        · exact ih _ hok n hn ⟨ent', hent2, hcov'⟩

theorem deleteDirRec_clean (delOk keep : ObjName → Bool) :
    ∀ (d : Nat) (dir : ObjName) (bkt : List ObjName),
      (deleteDirRec delOk keep d dir bkt).1 = .ok () →
      ∀ n ∈ (deleteDirRec delOk keep d dir bkt).2.2,
        dir.isPrefixOf n = true → dir.length < n.length → keep n = true := by
  intro d
  induction d with
  | zero =>
    intro dir bkt hok
    exact absurd hok (by simp [deleteDirRec])
  | succ d ih =>
    intro dir bkt hok n hn hpre hlen
    have hnbkt : n ∈ bkt := deleteDirRec_subset delOk keep (d + 1) dir bkt hn
    obtain ⟨ent, hent, hcov⟩ := coverage hnbkt hpre hlen
    exact delLoop_clean delOk keep _ (fun dir2 b2 => deleteDirRec_subset delOk keep d dir2 b2)
      (fun dir2 b2 hk2 => ih dir2 b2 hk2) dir (iterEntries bkt dir) bkt hok n hn
      ⟨ent, hent, hcov⟩

end block

namespace block

theorem metaStep_cases (delOk : ObjName → Bool) (mf : ObjName) (bkt : List ObjName) :
    (containsName bkt mf = true ∧ delOk mf = true ∧
      metaStep delOk mf bkt = (.ok (), [mf], eraseObj bkt mf)) ∨
    (containsName bkt mf = true ∧ delOk mf = false ∧
      metaStep delOk mf bkt = (.error .deleteFailed, [mf], bkt)) ∨
    (containsName bkt mf = false ∧ metaStep delOk mf bkt = (.ok (), [], bkt)) := by
  by_cases hc : containsName bkt mf = true
  · by_cases hd : delOk mf = true
    · exact Or.inl ⟨hc, hd, by simp [metaStep, hc, hd]⟩
    · exact Or.inr (Or.inl ⟨hc, by simpa using hd, by simp [metaStep, hc, hd]⟩)
  · exact Or.inr (Or.inr ⟨by simpa using hc, by simp [metaStep, hc]⟩)

theorem delMarkStep_cases (delOk : ObjName → Bool) (mf : ObjName) (bkt : List ObjName) :
    (containsName bkt mf = true ∧ delOk mf = true ∧
      delMarkStep delOk mf bkt = (.ok (), [mf], eraseObj bkt mf)) ∨
    (containsName bkt mf = true ∧ delOk mf = false ∧
      delMarkStep delOk mf bkt = (.error .deleteFailed, [mf], bkt)) ∨
    (containsName bkt mf = false ∧ delMarkStep delOk mf bkt = (.ok (), [], bkt)) := by
  by_cases hc : containsName bkt mf = true
  · by_cases hd : delOk mf = true
    · exact Or.inl ⟨hc, hd, by simp [delMarkStep, hc, hd]⟩
    · exact Or.inr (Or.inl ⟨hc, by simpa using hd, by simp [delMarkStep, hc, hd]⟩)
  · exact Or.inr (Or.inr ⟨by simpa using hc, by simp [delMarkStep, hc]⟩)

theorem Delete_cases (delOk : ObjName → Bool) (id : String) (bkt : List ObjName) :
    (∃ tr1 b1,
      metaStep delOk [id, metadata.MetaFilename] bkt = (.ok (), tr1, b1) ∧
      ((∃ e, (deleteRec delOk id b1).1 = .error e ∧
         Delete delOk id bkt = (.error e, tr1 ++ (deleteRec delOk id b1).2.1,
           (deleteRec delOk id b1).2.2)) ∨
       ((deleteRec delOk id b1).1 = .ok () ∧
         Delete delOk id bkt =
           ((delMarkStep delOk [id, metadata.DeletionMarkFilename]
               (deleteRec delOk id b1).2.2).1,
            tr1 ++ (deleteRec delOk id b1).2.1 ++
              (delMarkStep delOk [id, metadata.DeletionMarkFilename]
                (deleteRec delOk id b1).2.2).2.1,
            (delMarkStep delOk [id, metadata.DeletionMarkFilename]
              (deleteRec delOk id b1).2.2).2.2)))) ∨
    (∃ e tr1 b1, metaStep delOk [id, metadata.MetaFilename] bkt = (.error e, tr1, b1) ∧
      Delete delOk id bkt = (.error e, tr1, b1)) := by
  rcases hms : metaStep delOk [id, metadata.MetaFilename] bkt with ⟨r1, tr1, b1⟩
  cases r1 with
  | error e =>
    right
    exact ⟨e, tr1, b1, rfl, by simp [Delete, hms]⟩
  | ok u =>
    cases u
    left
    refine ⟨tr1, b1, rfl, ?_⟩
    cases hr2 : (deleteRec delOk id b1).1 with
    | error e =>
      exact Or.inl ⟨e, rfl, by simp [Delete, hms, hr2]⟩
    | ok u2 =>
      cases u2
      exact Or.inr ⟨rfl, by simp [Delete, hms, hr2]⟩

end block

/-- Claim C2: for every Delete invocation, the deletion of id/meta.json
(when it exists) is the first deletion issued, and a failed descriptor
deletion aborts before any other deletion; the deletion mark, when it
appears in the trace, is the very last deletion issued, after every other
object under the prefix; at no point during or after a partially failed
Delete is meta.json present while any other deletion has begun; and a
successful Delete leaves no object under the block prefix. -/
theorem delete_ordering (delOk : block.ObjName → Bool) (id : String)
    (bkt : List block.ObjName) :
    (block.containsName bkt [id, metadata.MetaFilename] = true →
      (block.Delete delOk id bkt).2.1.head? = some [id, metadata.MetaFilename]) ∧
    (block.containsName bkt [id, metadata.MetaFilename] = true →
      delOk [id, metadata.MetaFilename] = false →
      block.Delete delOk id bkt =
        (.error .deleteFailed, [[id, metadata.MetaFilename]], bkt)) ∧
    (([id, metadata.DeletionMarkFilename] : block.ObjName) ∈ (block.Delete delOk id bkt).2.1 →
      ∃ t, (block.Delete delOk id bkt).2.1 = t ++ [[id, metadata.DeletionMarkFilename]] ∧
        ([id, metadata.DeletionMarkFilename] : block.ObjName) ∉ t) ∧
    (∀ i n, (block.Delete delOk id bkt).2.1.get? i = some n →
      n ≠ [id, metadata.MetaFilename] →
      ([id, metadata.MetaFilename] : block.ObjName) ∉
        block.applyDeletes delOk bkt ((block.Delete delOk id bkt).2.1.take i)) ∧
    ((block.Delete delOk id bkt).1 = .ok () →
      ∀ n ∈ (block.Delete delOk id bkt).2.2,
        [id].isPrefixOf n = true → 1 < n.length → False) := by
  have hnemm : ([id, metadata.DeletionMarkFilename] : block.ObjName) ≠
      [id, metadata.MetaFilename] := by
    simp [metadata.MetaFilename, metadata.DeletionMarkFilename]
  have hkeepmark : block.deleteKeep id [id, metadata.DeletionMarkFilename] = true := by
    simp [block.deleteKeep]
  have hmarknotinrec : ∀ b, ([id, metadata.DeletionMarkFilename] : block.ObjName) ∉
      (block.deleteRec delOk id b).2.1 := by
    intro b hmem
    have hk := block.deleteDirRec_trace_keep delOk (block.deleteKeep id)
      (block.maxNameLen b + 1) [id] b _ hmem
    rw [hkeepmark] at hk
    exact absurd hk (by simp)
  have hnotmem : ∀ (b : List block.ObjName) (n : block.ObjName),
      block.containsName b n = false → n ∉ b := by
    intro b n hc hmem
    rw [block.containsName_iff.2 hmem] at hc
    exact absurd hc (by simp)
  have hclean : ∀ (b : List block.ObjName),
      (block.deleteRec delOk id b).1 = .ok () →
      ∀ n ∈ (block.deleteRec delOk id b).2.2,
        [id].isPrefixOf n = true → 1 < n.length →
        n = [id, metadata.MetaFilename] ∨ n = [id, metadata.DeletionMarkFilename] := by
    intro b hok n hn hpre hlen
    have hk := block.deleteDirRec_clean delOk (block.deleteKeep id)
      (block.maxNameLen b + 1) [id] b hok n hn hpre (by simpa using hlen)
    simp only [block.deleteKeep, Bool.or_eq_true, beq_iff_eq] at hk
    exact hk
  have hrecsub : ∀ b, (block.deleteRec delOk id b).2.2 ⊆ b := by
    intro b
    exact block.deleteDirRec_subset delOk (block.deleteKeep id)
      (block.maxNameLen b + 1) [id] b
  rcases block.metaStep_cases delOk [id, metadata.MetaFilename] bkt with
    ⟨hcm, hdm, hms2⟩ | ⟨hcm, hdm, hms2⟩ | ⟨hcm, hms2⟩
  · -- the descriptor exists and its deletion succeeds
    rcases block.Delete_cases delOk id bkt with ⟨tr1, b1, hms, hrest⟩ | ⟨e, tr1, b1, hms, hD⟩
    swap
    · rw [hms2] at hms
      simp at hms
    · rw [hms2] at hms
      have htr1 : tr1 = [[id, metadata.MetaFilename]] := by
        have h := congrArg (fun p => p.2.1) hms
        simpa using h.symm
      have hb1 : b1 = block.eraseObj bkt [id, metadata.MetaFilename] := by
        have h := congrArg (fun p => p.2.2) hms
        simpa using h.symm
      subst htr1
      subst hb1
      obtain ⟨rest, htr⟩ : ∃ rest, (block.Delete delOk id bkt).2.1 =
          [id, metadata.MetaFilename] :: rest := by
        rcases hrest with ⟨e2, _, hD⟩ | ⟨_, hD⟩
        · exact ⟨(block.deleteRec delOk id
            (block.eraseObj bkt [id, metadata.MetaFilename])).2.1, by rw [hD]; rfl⟩
        · refine ⟨(block.deleteRec delOk id
            (block.eraseObj bkt [id, metadata.MetaFilename])).2.1 ++
            (block.delMarkStep delOk [id, metadata.DeletionMarkFilename]
              (block.deleteRec delOk id
                (block.eraseObj bkt [id, metadata.MetaFilename])).2.2).2.1, ?_⟩
          rw [hD]
          simp
      refine ⟨?_, ?_, ?_, ?_, ?_⟩
      · intro _
        rw [htr]
        rfl
      · intro _ hdmf
        rw [hdm] at hdmf
        exact absurd hdmf (by simp)
      · intro hmem
        rcases hrest with ⟨e2, hr2err, hD⟩ | ⟨hr2ok, hD⟩
        · rw [hD] at hmem
          rcases List.mem_append.1 hmem with hc | hc
          · exact absurd (List.mem_singleton.1 hc) hnemm
          · exact absurd hc (hmarknotinrec _)
        · rcases block.delMarkStep_cases delOk [id, metadata.DeletionMarkFilename]
            ((block.deleteRec delOk id
              (block.eraseObj bkt [id, metadata.MetaFilename])).2.2) with
            ⟨hcmk, hdmk, hm3⟩ | ⟨hcmk, hdmk, hm3⟩ | ⟨hcmk, hm3⟩
          · rw [hm3] at hD
            refine ⟨[[id, metadata.MetaFilename]] ++ (block.deleteRec delOk id
              (block.eraseObj bkt [id, metadata.MetaFilename])).2.1, by rw [hD], ?_⟩
            intro hmem2
            rcases List.mem_append.1 hmem2 with hc | hc
            · exact absurd (List.mem_singleton.1 hc) hnemm
            · exact absurd hc (hmarknotinrec _)
          · rw [hm3] at hD
            refine ⟨[[id, metadata.MetaFilename]] ++ (block.deleteRec delOk id
              (block.eraseObj bkt [id, metadata.MetaFilename])).2.1, by rw [hD], ?_⟩
            intro hmem2
            rcases List.mem_append.1 hmem2 with hc | hc
            · exact absurd (List.mem_singleton.1 hc) hnemm
            · exact absurd hc (hmarknotinrec _)
          · rw [hm3] at hD
            rw [hD] at hmem
            simp only [List.append_nil] at hmem
            rcases List.mem_append.1 hmem with hc | hc
            · exact absurd (List.mem_singleton.1 hc) hnemm
            · exact absurd hc (hmarknotinrec _)
      · intro i n hget hne
        rw [htr] at hget ⊢
        cases i with
        | zero =>
          have : n = [id, metadata.MetaFilename] := by simpa using hget.symm
          exact absurd this hne
        | succ j =>
          rw [List.take_succ_cons]
          rw [show block.applyDeletes delOk bkt
              ([id, metadata.MetaFilename] :: rest.take j) =
            block.applyDeletes delOk
              (block.eraseObj bkt [id, metadata.MetaFilename]) (rest.take j) from by
            simp [block.applyDeletes, hdm]]
          intro hmem
          exact block.not_mem_eraseObj bkt _
            (block.applyDeletes_subset delOk _ _ hmem)
      · intro hok n hn hpre hlen
        rcases hrest with ⟨e2, hr2err, hD⟩ | ⟨hr2ok, hD⟩
        · rw [hD] at hok
          exact absurd hok (by simp)
        · rcases block.delMarkStep_cases delOk [id, metadata.DeletionMarkFilename]
            ((block.deleteRec delOk id
              (block.eraseObj bkt [id, metadata.MetaFilename])).2.2) with
            ⟨hcmk, hdmk, hm3⟩ | ⟨hcmk, hdmk, hm3⟩ | ⟨hcmk, hm3⟩
          · rw [hm3] at hD
            rw [hD] at hn
            have hn2 : n ∈ (block.deleteRec delOk id
                (block.eraseObj bkt [id, metadata.MetaFilename])).2.2 :=
              block.eraseObj_subset _ _ hn
            rcases hclean _ hr2ok n hn2 hpre hlen with rfl | rfl
            · exact block.not_mem_eraseObj bkt _ (hrecsub _ hn2)
            · exact block.not_mem_eraseObj _ _ hn
          · rw [hm3] at hD
            rw [hD] at hok
            exact absurd hok (by simp)
          · rw [hm3] at hD
            rw [hD] at hn
            rcases hclean _ hr2ok n hn hpre hlen with rfl | rfl
            · exact block.not_mem_eraseObj bkt _ (hrecsub _ hn)
            · exact absurd hn (hnotmem _ _ hcmk)
  · -- the descriptor exists and its deletion fails: abort after one call
    rcases block.Delete_cases delOk id bkt with ⟨tr1, b1, hms, hrest⟩ | ⟨e, tr1, b1, hms, hD⟩
    · rw [hms2] at hms
      simp at hms
    · rw [hms2] at hms
      have he : block.DelErr.deleteFailed = e := by
        have h := congrArg (fun p => p.1) hms
        simpa using h
      have htr1 : [[id, metadata.MetaFilename]] = tr1 := by
        have h := congrArg (fun p => p.2.1) hms
        simpa using h
      have hb1 : bkt = b1 := by
        have h := congrArg (fun p => p.2.2) hms
        simpa using h
      subst he
      subst htr1
      subst hb1
      refine ⟨?_, ?_, ?_, ?_, ?_⟩
      · intro _
        rw [hD]
        rfl
      · intro _ _
        exact hD
      · intro hmem
        rw [hD] at hmem
        exact absurd (List.mem_singleton.1 hmem) hnemm
      · intro i n hget hne
        rw [hD] at hget ⊢
        cases i with
        | zero =>
          have : n = [id, metadata.MetaFilename] := by simpa using hget.symm
          exact absurd this hne
        | succ j =>
          simp at hget
      · intro hok
        rw [hD] at hok
        exact absurd hok (by simp)
  · -- the descriptor does not exist
    have hmetanot : ([id, metadata.MetaFilename] : block.ObjName) ∉ bkt :=
      hnotmem _ _ hcm
    rcases block.Delete_cases delOk id bkt with ⟨tr1, b1, hms, hrest⟩ | ⟨e, tr1, b1, hms, hD⟩
    swap
    · rw [hms2] at hms
      simp at hms
    · rw [hms2] at hms
      have htr1 : tr1 = [] := by
        have h := congrArg (fun p => p.2.1) hms
        simpa using h.symm
      have hb1 : bkt = b1 := by
        have h := congrArg (fun p => p.2.2) hms
        simpa using h
      subst htr1
      subst hb1
      refine ⟨?_, ?_, ?_, ?_, ?_⟩
      · intro h
        rw [h] at hcm
        exact absurd hcm (by simp)
      · intro h _
        rw [h] at hcm
        exact absurd hcm (by simp)
      · intro hmem
        rcases hrest with ⟨e2, hr2err, hD⟩ | ⟨hr2ok, hD⟩
        · rw [hD] at hmem
          simp only [List.nil_append] at hmem
          exact absurd hmem (hmarknotinrec _)
        · rcases block.delMarkStep_cases delOk [id, metadata.DeletionMarkFilename]
            ((block.deleteRec delOk id bkt).2.2) with
            ⟨hcmk, hdmk, hm3⟩ | ⟨hcmk, hdmk, hm3⟩ | ⟨hcmk, hm3⟩
          · rw [hm3] at hD
            refine ⟨[] ++ (block.deleteRec delOk id bkt).2.1, by rw [hD], ?_⟩
            intro hmem2
            rcases List.mem_append.1 hmem2 with hc | hc
            · exact absurd hc (by simp)
            · exact absurd hc (hmarknotinrec _)
          · rw [hm3] at hD
            refine ⟨[] ++ (block.deleteRec delOk id bkt).2.1, by rw [hD], ?_⟩
            intro hmem2
            rcases List.mem_append.1 hmem2 with hc | hc
            · exact absurd hc (by simp)
            · exact absurd hc (hmarknotinrec _)
          · rw [hm3] at hD
            rw [hD] at hmem
            simp only [List.nil_append, List.append_nil] at hmem
            exact absurd hmem (hmarknotinrec _)
      · intro i n hget hne hmem
        exact hmetanot (block.applyDeletes_subset delOk _ _ hmem)
      · intro hok n hn hpre hlen
        rcases hrest with ⟨e2, hr2err, hD⟩ | ⟨hr2ok, hD⟩
        · rw [hD] at hok
          exact absurd hok (by simp)
        · rcases block.delMarkStep_cases delOk [id, metadata.DeletionMarkFilename]
            ((block.deleteRec delOk id bkt).2.2) with
            ⟨hcmk, hdmk, hm3⟩ | ⟨hcmk, hdmk, hm3⟩ | ⟨hcmk, hm3⟩
          · rw [hm3] at hD
            rw [hD] at hn
            have hn2 : n ∈ (block.deleteRec delOk id bkt).2.2 :=
              block.eraseObj_subset _ _ hn
            rcases hclean _ hr2ok n hn2 hpre hlen with rfl | rfl
            · exact hmetanot (hrecsub _ hn2)
            · exact block.not_mem_eraseObj _ _ hn
          · rw [hm3] at hD
            rw [hD] at hok
            exact absurd hok (by simp)
          · rw [hm3] at hD
            rw [hD] at hn
            rcases hclean _ hr2ok n hn hpre hlen with rfl | rfl
            · exact hmetanot (hrecsub _ hn)
            · exact absurd hn (hnotmem _ _ hcmk)

def bktW : List block.ObjName :=
  [["01", metadata.MetaFilename],
   ["01", block.ChunksDirname, "000001"],
   ["01", block.IndexFilename],
   ["01", metadata.DeletionMarkFilename]]

/-- Witness for C2 at a concrete four-object block: the descriptor deletion
comes first, the mark deletion comes last, the descriptor is already gone
when the second deletion is issued, and a failing descriptor deletion
aborts the whole operation with the bucket untouched. -/
theorem delete_ordering_witness :
    ((block.Delete (fun _ => true) "01" bktW).2.1.head? =
        some ["01", metadata.MetaFilename]) ∧
    (∃ t, (block.Delete (fun _ => true) "01" bktW).2.1 =
        t ++ [["01", metadata.DeletionMarkFilename]] ∧
      (["01", metadata.DeletionMarkFilename] : block.ObjName) ∉ t) ∧
    ((["01", metadata.MetaFilename] : block.ObjName) ∉
      block.applyDeletes (fun _ => true) bktW
        ((block.Delete (fun _ => true) "01" bktW).2.1.take 1)) ∧
    block.Delete (fun _ => false) "01" bktW =
      (Except.error block.DelErr.deleteFailed,
        [["01", metadata.MetaFilename]], bktW) := by
  refine ⟨?_, ?_, ?_, ?_⟩
  · exact (delete_ordering (fun _ => true) "01" bktW).1 (by decide)
  · exact (delete_ordering (fun _ => true) "01" bktW).2.2.1 (by decide)
  · exact (delete_ordering (fun _ => true) "01" bktW).2.2.2.1 1
      ["01", block.ChunksDirname, "000001"] (by decide) (by decide)
  · exact (delete_ordering (fun _ => false) "01" bktW).2.1 (by decide) (by decide)
